import Mathlib

/-!
# Taskfile resolution (`taskfile/read/taskfile.go`)

A shallow embedding of the Go package `read`: the upward search for the
entrypoint (`findPath`), the loader (`readTaskfile`) and the resolution
pipeline (`Taskfile`): dotenv overlay, include resolution, legacy
platform-variant merge and task finalization.

Conventions of the embedding

* A Go `string` is a `List Char` (`Str`).
* A Go map is an association list; ranging over it visits the entries in the
  order of the list, so a statement quantified over all lists covers every
  iteration order the runtime may choose.
* A Go function returning `(x, error)` returns a `Res`: `ok`, `err`, or
  `panic` for a run-time panic (nil dereference, slice bounds).
* The collaborators that live outside the file (the operating system, the yaml
  decoder, godotenv, the templater, `taskfile.Merge`, `ParsedVersion`) are the
  fields of a `World`; every call of one of them is recorded in a trace of
  `Event`s, so that "is never called" is a statement about the trace.
-/

/-- Go strings, as lists of characters. -/
abbrev Str := List Char

/-! ## Package `strings` -/

namespace strings

/-- The function `strings.Split(s, sep)` for a one-character separator: the
substrings between the separators; never empty. -/
def Split : Str → Char → List Str
  | [], _ => [[]]
  | c :: cs, sep =>
    if c = sep then [] :: Split cs sep
    else
      match Split cs sep with
      | [] => [[c]]
      | f :: fs => (c :: f) :: fs

/-- The function `strings.Join(elems, sep)`. -/
def Join : List Str → Str → Str
  | [], _ => []
  | [x], _ => x
  | x :: y :: rest, sep => x ++ sep ++ Join (y :: rest) sep

/-- The function `strings.HasPrefix(s, p)`. -/
def HasPrefix : Str → Str → Bool
  | _, [] => true
  | [], _ :: _ => false
  | c :: cs, p :: ps => c == p && HasPrefix cs ps

end strings

/-! ## Package `path/filepath` (Unix) -/

namespace filepath

/-- The separator `os.PathSeparator` as a string. -/
def Separator : Str := ['/']

/-- The function `filepath.IsAbs` on Unix: the path starts with a slash. -/
def IsAbs (path : Str) : Bool := strings.HasPrefix path Separator

/-- One step of the lexical clean-up over path elements, the elements kept so
far in reverse order: empty elements and `.` are dropped, `..` removes the
element before it, is dropped at the root and is kept at the start of a
relative path. -/
def cleanStep (rooted : Bool) (stack : List Str) (c : Str) : List Str :=
  if c = [] ∨ c = ['.'] then stack
  else if c = ['.', '.'] then
    match stack with
    | [] => if rooted then [] else [c]
    | top :: below => if top = ['.', '.'] then c :: stack else below
  else c :: stack

/-- The function `filepath.Clean` on Unix, computed over the path elements: the
shortest equivalent path by purely lexical processing. -/
def Clean (path : Str) : Str :=
  let rooted := IsAbs path
  let stack := (strings.Split path '/').foldl (cleanStep rooted) []
  let body := strings.Join stack.reverse Separator
  let out := if rooted then '/' :: body else body
  if out = [] then ['.'] else out

/-- The function `filepath.Join`: the elements from the first non-empty one on
are joined with the separator and the result is cleaned; all empty gives the
empty string. -/
def Join : List Str → Str
  | [] => []
  | e :: rest => if e ≠ [] then Clean (strings.Join (e :: rest) Separator) else Join rest

end filepath

/-! ## Package `taskfile`: the document model

The declarations of package `taskfile` are outside the file under study; the
types below follow the data model of the specification. -/

set_option linter.dupNamespace false

namespace taskfile

/-- Modelled from the spec: the type `taskfile.Var` (declared outside the file),
a static value or an expression evaluated later (`Sh`). -/
structure Var where
  Static : Str
  Sh : Str
  deriving DecidableEq, Repr

/-- Modelled from the spec: the type `taskfile.Vars` (declared outside the
file), the mapping of variable name to `Var`, as an association list. -/
structure Vars where
  Mapping : List (Str × Var)
  deriving DecidableEq, Repr

/-- The Go map index `m[key]` with its `ok` flag, on an association list. -/
def mapGet {β : Type} : List (Str × β) → Str → Option β
  | [], _ => none
  | (k, x) :: rest, key => if k = key then some x else mapGet rest key

/-- The Go map assignment `m[key] = value`, on an association list. -/
def mapSet {β : Type} : List (Str × β) → Str → β → List (Str × β)
  | [], key, value => [(key, value)]
  | (k, x) :: rest, key, value =>
    if k = key then (k, value) :: rest else (k, x) :: mapSet rest key value

/-- Modelled from the spec: the method `Vars.Set` (declared outside the file),
which binds `key` to `value` in the mapping. -/
def Vars.Set (vs : Vars) (key : Str) (value : Var) : Vars :=
  { Mapping := mapSet vs.Mapping key value }

/-- Modelled from the spec: the type `taskfile.Task` (declared outside the
file): its own name, the working-directory override, and `Cmds` standing for
the execution fields this package never touches. -/
structure Task where
  Task : Str
  Dir : Str
  Cmds : List Str
  deriving DecidableEq, Repr

/-- Modelled from the spec: the type `taskfile.IncludedTaskfile` (declared
outside the file): file-or-directory path, base directory, advanced flag. -/
structure IncludedTaskfile where
  Taskfile : Str
  Dir : Str
  AdvancedImport : Bool
  deriving DecidableEq, Repr

/-- Modelled from the spec: the type `taskfile.Taskfile` (declared outside the
file), the parsed document. `Tasks` maps a name to a `*Task`; `none` is the nil
pointer of a task declared with an empty body. -/
structure Taskfile where
  Version : Str
  Includes : List (Str × IncludedTaskfile)
  Dotenv : List Str
  Env : Vars
  Tasks : List (Str × Option Task)
  deriving DecidableEq, Repr

end taskfile

/-! ## Results, errors and the world -/

/-- Go `error` values met in the package. -/
inductive Err where
  /-- The package variable `ErrIncludedTaskfilesCantHaveIncludes`. -/
  | IncludedTaskfilesCantHaveIncludes
  /-- The package variable `ErrIncludedTaskfilesCantHaveDotenvs`. -/
  | IncludedTaskfilesCantHaveDotenvs
  /-- An error built by `fmt.Errorf`, with its message. -/
  | errorf (msg : Str)
  /-- An error returned by a collaborator (os, yaml, godotenv, templater, Merge). -/
  | external (msg : Str)
  deriving DecidableEq, Repr

/-- Outcome of a Go call returning `(value, error)`; `panic` is a run-time
panic. -/
inductive Res (α : Type) where
  | ok (a : α)
  | err (e : Err)
  | panic
  deriving DecidableEq, Repr

/-- Result of `os.Stat`: file information (only `IsDir` is used), or an error
together with what `os.IsNotExist` answers for it. -/
inductive StatResult where
  | info (isDir : Bool)
  | error (e : Err) (isNotExist : Bool)
  deriving DecidableEq, Repr

/-- The test `err == nil` on the result of `os.Stat`. -/
def StatResult.isOk : StatResult → Bool
  | StatResult.info _ => true
  | StatResult.error _ _ => false

/-- A `float64` as returned by `ParsedVersion`: a finite value, an infinity or
NaN; only the comparisons with `3.0` are used. -/
inductive Float64 where
  | finite (q : ℚ)
  | posInf
  | negInf
  | nan
  deriving DecidableEq

/-- The comparison `v >= 3.0`. -/
def Float64.ge3 : Float64 → Bool
  | Float64.finite q => decide (3 ≤ q)
  | Float64.posInf => true
  | _ => false

/-- The comparison `v < 3.0`. -/
def Float64.lt3 : Float64 → Bool
  | Float64.finite q => decide (q < 3)
  | Float64.negInf => true
  | _ => false

/-- The collaborators of package `read`: the operating system, the yaml
decoder, godotenv, the templater, `ParsedVersion` and `taskfile.Merge`. -/
structure World where
  /-- The working directory, `os.Getwd`. -/
  Getwd : Except Err Str
  /-- The call `os.Stat(path)`. -/
  Stat : Str → StatResult
  /-- The call `os.Open(file)`: the content of the file. -/
  Open : Str → Except Err Str
  /-- The call `yaml.NewDecoder(f).Decode(&t)` on a file content. -/
  Decode : Str → Except Err taskfile.Taskfile
  /-- The call `godotenv.Read(path)`. -/
  godotenvRead : Str → Except Err (List (Str × Str))
  /-- The method `ParsedVersion` of a document. -/
  ParsedVersion : taskfile.Taskfile → Except Err Float64
  /-- The templater `Replace` with no variables bound; an error is the one
  `tr.Err()` reports. -/
  Replace : Str → Except Err Str
  /-- The call `taskfile.Merge(t1, t2, namespaces...)`: the destination after the
  merge, the error, or a panic inside the merge. -/
  Merge : taskfile.Taskfile → taskfile.Taskfile → List Str → Res taskfile.Taskfile
  /-- The constant `runtime.GOOS`. -/
  GOOS : Str

/-- The calls of collaborators that a run makes, in order. -/
inductive Event where
  | Stat (path : Str)
  | Open (path : Str)
  | godotenvRead (path : Str)
  | ParsedVersion (t : taskfile.Taskfile)
  | Replace (s : Str)
  | Merge (t1 t2 : taskfile.Taskfile) (namespaces : List Str)
  deriving DecidableEq, Repr

/-- The event is a call of `taskfile.Merge`. -/
def Event.isMerge : Event → Bool
  | Event.Merge _ _ _ => true
  | _ => false

/-- The event is a call of `godotenv.Read` or of the templater. -/
def Event.isDotenvOrTemplate : Event → Bool
  | Event.godotenvRead _ => true
  | Event.Replace _ => true
  | _ => false

/-- A run: the trace of collaborator calls and the outcome. -/
structure Run (α : Type) where
  events : List Event
  result : Res α
  deriving DecidableEq, Repr

namespace Run

/-- Return a value, no call made. -/
def pure {α : Type} (a : α) : Run α := ⟨[], Res.ok a⟩

/-- Return the error `e`, no call made. -/
def fail {α : Type} (e : Err) : Run α := ⟨[], Res.err e⟩

/-- The outcome of a collaborator, no call recorded. -/
def lift {α : Type} : Except Err α → Run α
  | Except.ok a => ⟨[], Res.ok a⟩
  | Except.error e => ⟨[], Res.err e⟩

/-- The outcome of a collaborator that may panic, no call recorded. -/
def ofRes {α : Type} (r : Res α) : Run α := ⟨[], r⟩

/-- Record the call `e`, then run `r`. -/
def after {α : Type} (e : Event) (r : Run α) : Run α := ⟨e :: r.events, r.result⟩

/-- Sequencing with `if err != nil \x7b return nil, err \x7d`: the continuation
runs on success only. -/
def bind {α β : Type} (x : Run α) (f : α → Run β) : Run β :=
  match x.result with
  | Res.ok a => ⟨x.events ++ (f a).events, (f a).result⟩
  | Res.err e => ⟨x.events, Res.err e⟩
  | Res.panic => ⟨x.events, Res.panic⟩

end Run

/-- The Go slice expression `xs[lo:hi]`; `none` is the slice-bounds panic. -/
def goSlice {α : Type} (xs : List α) (lo hi : Nat) : Option (List α) :=
  if lo ≤ hi ∧ hi ≤ xs.length then some ((xs.take hi).drop lo) else none

namespace filepath

/-- The function `filepath.Abs` on Unix, as `(path, err)`. -/
def Abs (getwd : Except Err Str) (path : Str) : Str × Option Err :=
  if IsAbs path then (Clean path, none)
  else
    match getwd with
    | Except.error e => ([], some e)
    | Except.ok wd => (Join [wd, path], none)

end filepath

/-! ## Package `read` -/

namespace read

/-- The message of the error of `findPath`. -/
def notFoundMessage (anker : Str) : Str :=
  "task: No Taskfile found on \"".toList ++ anker ++
    "\". Use \"task --init\" to create a new one".toList

/-- The loop `for !found` of `findPath`, one iteration per unit of fuel; `none`
is fuel exhausted. -/
def findPathLoop (w : World) (anker entrypoint : Str) : Nat → Str → Option (Run Str)
  | 0, _ => none
  | fuel + 1, dir =>
    let path := filepath.Join [dir, entrypoint]
    if (w.Stat path).isOk then some ⟨[Event.Stat path], Res.ok path⟩
    else if dir = ['/'] then
      some ⟨[Event.Stat path], Res.err (Err.errorf (notFoundMessage anker))⟩
    else
      let dirFragments := strings.Split dir '/'
      match goSlice dirFragments 1 (dirFragments.length - 1) with
      | none => some ⟨[Event.Stat path], Res.panic⟩
      | some mid =>
        (findPathLoop w anker entrypoint fuel
          ('/' :: strings.Join mid filepath.Separator)).map (Run.after (Event.Stat path))

/-- The function `findPath`. The loop runs at most once per character of `dir`
(theorem `findPathLoop_fuel`: that budget is never exhausted), so the last
branch is dead. -/
def findPath (w : World) (dir entrypoint : Str) : Run Str :=
  match findPathLoop w (filepath.Join [dir, entrypoint]) entrypoint (dir.length + 1) dir with
  | some r => r
  | none => ⟨[], Res.panic⟩

/-- The function `readTaskfile`: open the file, decode it. -/
def readTaskfile (w : World) (file : Str) : Run taskfile.Taskfile :=
  Run.after (Event.Open file)
    (Run.bind (Run.lift (w.Open file)) fun f => Run.lift (w.Decode f))

/-- The inner loop of the dotenv overlay: `for key, value := range envs`, a key
is set only when the mapping does not have it yet. -/
def overlayEnvs : List (Str × Str) → taskfile.Vars → taskfile.Vars
  | [], env => env
  | (key, value) :: rest, env =>
    overlayEnvs rest
      (if (taskfile.mapGet env.Mapping key).isSome then env
       else env.Set key { Static := value, Sh := [] })

/-- The loop `for _, dotEnvPath := range t.Dotenv` of `Taskfile`. -/
def dotenvLoop (w : World) (dir : Str) : List Str → taskfile.Taskfile → Run taskfile.Taskfile
  | [], t => Run.pure t
  | p :: rest, t =>
    let dotEnvPath := if filepath.IsAbs p then p else filepath.Join [dir, p]
    Run.after (Event.Stat dotEnvPath)
      (match w.Stat dotEnvPath with
       | StatResult.error _ true => dotenvLoop w dir rest t
       | _ =>
         Run.after (Event.godotenvRead dotEnvPath)
           (Run.bind (Run.lift (w.godotenvRead dotEnvPath)) fun envs =>
             dotenvLoop w dir rest { t with Env := overlayEnvs envs t.Env }))

/-- The block `if v >= 3.0` holding the dotenv loop. -/
def dotenvStage (w : World) (dir : Str) (v : Float64) (t : taskfile.Taskfile) :
    Run taskfile.Taskfile :=
  if v.ge3 then dotenvLoop w dir t.Dotenv t else Run.pure t

/-- The block `if v >= 3.0` at the head of the include loop: both fields go
through the templater, then `tr.Err()` is tested; the templater keeps its first
error. -/
def templateInclude (w : World) (v : Float64) (includedTask : taskfile.IncludedTaskfile) :
    Run taskfile.IncludedTaskfile :=
  if v.ge3 then
    ⟨[Event.Replace includedTask.Taskfile, Event.Replace includedTask.Dir],
      match w.Replace includedTask.Taskfile with
      | Except.error e => Res.err e
      | Except.ok tf =>
        match w.Replace includedTask.Dir with
        | Except.error e => Res.err e
        | Except.ok d =>
          Res.ok { Taskfile := tf, Dir := d, AdvancedImport := includedTask.AdvancedImport }⟩
  else Run.pure includedTask

/-- The loop `for _, task := range includedTaskfile.Tasks` of the advanced
import; `none` is the nil pointer dereference of `task.Dir` on a nil task. -/
def rebaseTasks (base : Str) :
    List (Str × Option taskfile.Task) → Option (List (Str × Option taskfile.Task))
  | [] => some []
  | (_, none) :: _ => none
  | (name, some task) :: rest =>
    (rebaseTasks base rest).map fun done =>
      (name, some (if !filepath.IsAbs task.Dir
        then { task with Dir := filepath.Join [base, task.Dir] } else task)) :: done

/-- The block `if includedTask.AdvancedImport`. -/
def rebaseIncluded (includedTask : taskfile.IncludedTaskfile)
    (includedTaskfile : taskfile.Taskfile) : Run taskfile.Taskfile :=
  if includedTask.AdvancedImport then
    match rebaseTasks includedTask.Dir includedTaskfile.Tasks with
    | none => ⟨[], Res.panic⟩
    | some tasks => Run.pure { includedTaskfile with Tasks := tasks }
  else Run.pure includedTaskfile

/-- The body of the loop `for namespace, includedTask := range t.Includes`. -/
def includeStep (w : World) (dir : Str) (v : Float64) (t : taskfile.Taskfile)
    (nspace : Str) (includedTask : taskfile.IncludedTaskfile) : Run taskfile.Taskfile :=
  Run.bind (templateInclude w v includedTask) fun includedTask =>
    let path :=
      if filepath.IsAbs includedTask.Taskfile then includedTask.Taskfile
      else filepath.Join [dir, includedTask.Taskfile]
    Run.after (Event.Stat path)
      (match w.Stat path with
       | StatResult.error e _ => Run.fail e
       | StatResult.info isDir =>
         let path := if isDir then filepath.Join [path, "Taskfile.yml".toList] else path
         Run.bind (readTaskfile w path) fun includedTaskfile =>
           if includedTaskfile.Includes.length > 0 then
             Run.fail Err.IncludedTaskfilesCantHaveIncludes
           else if v.ge3 && decide (includedTaskfile.Dotenv.length > 0) then
             Run.fail Err.IncludedTaskfilesCantHaveDotenvs
           else
             Run.bind (rebaseIncluded includedTask includedTaskfile) fun includedTaskfile =>
               Run.after (Event.Merge t includedTaskfile [nspace])
                 (Run.ofRes (w.Merge t includedTaskfile [nspace])))

/-- The loop `for namespace, includedTask := range t.Includes`. -/
def includesLoop (w : World) (dir : Str) (v : Float64) :
    List (Str × taskfile.IncludedTaskfile) → taskfile.Taskfile → Run taskfile.Taskfile
  | [], t => Run.pure t
  | (nspace, includedTask) :: rest, t =>
    Run.bind (includeStep w dir v t nspace includedTask) fun t => includesLoop w dir v rest t

/-- The name `fmt.Sprintf("Taskfile_%s.yml", runtime.GOOS)`. -/
def osTaskfileName (goos : Str) : Str := "Taskfile_".toList ++ goos ++ ".yml".toList

/-- The block `if v < 3.0`: the platform-variant file. -/
def legacyStage (w : World) (dir : Str) (v : Float64) (t : taskfile.Taskfile) :
    Run taskfile.Taskfile :=
  if v.lt3 then
    let path := filepath.Join [dir, osTaskfileName w.GOOS]
    Run.after (Event.Stat path)
      (if (w.Stat path).isOk then
        Run.bind (readTaskfile w path) fun osTaskfile =>
          Run.after (Event.Merge t osTaskfile []) (Run.ofRes (w.Merge t osTaskfile []))
       else Run.pure t)
  else Run.pure t

/-- The value `&taskfile.Task\x7b\x7d`. -/
def emptyTask : taskfile.Task := { Task := [], Dir := [], Cmds := [] }

/-- The loop `for name, task := range t.Tasks`: a nil task is replaced by an
empty one, then the name is stamped. -/
def finalizeTasks : List (Str × Option taskfile.Task) → List (Str × Option taskfile.Task)
  | [] => []
  | (name, task) :: rest =>
    (name, some { (match task with | none => emptyTask | some task => task) with Task := name })
      :: finalizeTasks rest

/-- Everything `Taskfile` does before the final loop over the tasks: the
document as merged. -/
def resolve (w : World) (dir entrypoint : Str) : Run taskfile.Taskfile :=
  let dir := (filepath.Abs w.Getwd dir).1
  Run.bind (findPath w dir entrypoint) fun path =>
  Run.bind (readTaskfile w path) fun t =>
  Run.bind (Run.after (Event.ParsedVersion t) (Run.lift (w.ParsedVersion t))) fun v =>
  Run.bind (dotenvStage w dir v t) fun t =>
  Run.bind (includesLoop w dir v t.Includes t) fun t =>
  legacyStage w dir v t

/-- The function `Taskfile`: reads a Taskfile for a given directory. -/
def Taskfile (w : World) (dir entrypoint : Str) : Run taskfile.Taskfile :=
  Run.bind (resolve w dir entrypoint) fun t =>
    Run.pure { t with Tasks := finalizeTasks t.Tasks }

end read

/-- The absolute path `/c1/.../cn` with the given elements; `/` for none. -/
def absPath (comps : List Str) : Str := '/' :: strings.Join comps filepath.Separator

/-- Path elements of a clean absolute path: non-empty, without a slash. -/
def ValidComps (comps : List Str) : Prop := ∀ c ∈ comps, c ≠ [] ∧ '/' ∉ c

/-! ## The dotenv overlay as the specification words it -/

/-- The dotenv path as resolved against the directory. -/
def dotenvPath (dir p : Str) : Str := if filepath.IsAbs p then p else filepath.Join [dir, p]

/-- The flat maps of the dotenv files that exist, in declaration order; a
missing file is skipped as if not listed. -/
def dotenvMaps (w : World) (dir : Str) (paths : List Str) : List (List (Str × Str)) :=
  paths.filterMap fun p =>
    match w.Stat (dotenvPath dir p) with
    | StatResult.error _ true => none
    | _ =>
      match w.godotenvRead (dotenvPath dir p) with
      | Except.ok m => some m
      | Except.error _ => none

/-- First writer wins, as the specification states it: a key of the declared
mapping keeps its binding; any other key is bound to the static value of the
earliest-listed file that has it; a key in none of them is unbound. -/
def firstWriterWins (declared : taskfile.Vars) (files : List (List (Str × Str))) (key : Str) :
    Option taskfile.Var :=
  match taskfile.mapGet declared.Mapping key with
  | some x => some x
  | none =>
    (files.findSome? fun m => taskfile.mapGet m key).map fun value =>
      { Static := value, Sh := [] }

/-- A file name, or a path element of a clean path: non-empty, without a
slash, neither `.` nor `..`. -/
def IsName (c : Str) : Prop := c ≠ [] ∧ '/' ∉ c ∧ c ≠ ['.'] ∧ c ≠ ['.', '.']

/-! ## Names for the paths of an include -/

/-- The path of an include as resolved against the directory. -/
def includePath (dir taskfilePath : Str) : Str :=
  if filepath.IsAbs taskfilePath then taskfilePath else filepath.Join [dir, taskfilePath]

/-- The file loaded for an include: `Taskfile.yml` inside a directory, the path
itself otherwise. -/
def includeFile (path : Str) (isDir : Bool) : Str :=
  if isDir then filepath.Join [path, "Taskfile.yml".toList] else path

/-- What the include loop does with a loaded included document: the two
structural checks, the rebasing, the merge. -/
def includeTail (w : World) (v : Float64) (t : taskfile.Taskfile) (nspace : Str)
    (includedTask : taskfile.IncludedTaskfile) (includedTaskfile : taskfile.Taskfile) :
    Run taskfile.Taskfile :=
  if includedTaskfile.Includes.length > 0 then
    Run.fail Err.IncludedTaskfilesCantHaveIncludes
  else if v.ge3 && decide (includedTaskfile.Dotenv.length > 0) then
    Run.fail Err.IncludedTaskfilesCantHaveDotenvs
  else
    Run.bind (read.rebaseIncluded includedTask includedTaskfile) fun includedTaskfile =>
      Run.after (Event.Merge t includedTaskfile [nspace])
        (Run.ofRes (w.Merge t includedTaskfile [nspace]))

/-- The directory `Taskfile` works with: `filepath.Abs(dir)`, its error
dropped. -/
def absDir (w : World) (dir : Str) : Str := (filepath.Abs w.Getwd dir).1

/-- What `Taskfile` does after the version is known, before the final loop. -/
def afterVersion (w : World) (dir : Str) (v : Float64) (t : taskfile.Taskfile) :
    Run taskfile.Taskfile :=
  Run.bind (read.dotenvStage w dir v t) fun t =>
  Run.bind (read.includesLoop w dir v t.Includes t) fun t =>
  read.legacyStage w dir v t

/-! ## Concrete worlds -/

/-- The name of a task under the namespaces, `ns:name`. -/
def taskNameWithNamespace (name : Str) (namespaces : List Str) : Str :=
  namespaces.foldr (fun n acc => n ++ ':' :: acc) name

/-- The tasks of a merge for the concrete worlds: every task of the source is
stored in the destination under its namespaced name, replacing a task of the
same name; `none` is the panic of the merge on a nil task of the source. -/
def demoMergeTasks (namespaces : List Str) :
    List (Str × Option taskfile.Task) → List (Str × Option taskfile.Task) →
      Option (List (Str × Option taskfile.Task))
  | [], dst => some dst
  | (_, none) :: _, _ => none
  | (name, some task) :: rest, dst =>
    demoMergeTasks namespaces rest
      (taskfile.mapSet dst (taskNameWithNamespace name namespaces) (some task))

/-- A merge for the concrete worlds, standing for `taskfile.Merge` there: the
tasks of the source go into the destination under their namespaced names; a
nil task in the source is a panic. The theorems hold for every `World.Merge`. -/
def demoMerge (t1 t2 : taskfile.Taskfile) (namespaces : List Str) : Res taskfile.Taskfile :=
  match demoMergeTasks namespaces t2.Tasks t1.Tasks with
  | none => Res.panic
  | some tasks => Res.ok { t1 with Tasks := tasks }

/-- A version parser for the concrete worlds: `2` and `3` only. -/
def demoVersion (t : taskfile.Taskfile) : Except Err Float64 :=
  if t.Version = ['2'] then Except.ok (Float64.finite 2)
  else if t.Version = ['3'] then Except.ok (Float64.finite 3)
  else Except.error (Err.external "invalid version".toList)

/-- The world given by a table of definition files, a list of directories and
a table of dotenv files; the content of a file is identified with its path. -/
def tableWorld (files : List (Str × taskfile.Taskfile)) (dirs : List Str)
    (envs : List (Str × List (Str × Str))) : World where
  Getwd := Except.ok ['/']
  Stat := fun path =>
    if path ∈ dirs then StatResult.info true
    else if (taskfile.mapGet files path).isSome || (taskfile.mapGet envs path).isSome then
      StatResult.info false
    else StatResult.error (Err.external "no such file or directory".toList) true
  Open := fun path =>
    if (taskfile.mapGet files path).isSome then Except.ok path
    else Except.error (Err.external "no such file or directory".toList)
  Decode := fun content =>
    match taskfile.mapGet files content with
    | some t => Except.ok t
    | none => Except.error (Err.external "yaml: unmarshal error".toList)
  godotenvRead := fun path =>
    match taskfile.mapGet envs path with
    | some m => Except.ok m
    | none => Except.error (Err.external "no such file or directory".toList)
  ParsedVersion := demoVersion
  Replace := fun s => Except.ok s
  Merge := demoMerge
  GOOS := "linux".toList

/-- A document with a version and nothing else. -/
def blankDoc (version : Str) : taskfile.Taskfile :=
  { Version := version, Includes := [], Dotenv := [], Env := { Mapping := [] }, Tasks := [] }

/-- A world with nothing in it: every probe fails. -/
def emptyWorld : World := tableWorld [] [] []

/-- A world whose only file is `/p/Taskfile.yml`. -/
def worldP : World := tableWorld [("/p/Taskfile.yml".toList, blankDoc ['3'])] [] []

/-- The scenario of the dotenv overlay: the root declares `FOO: root` and the
dotenv file `.env`. -/
def dotenvDoc : taskfile.Taskfile :=
  { blankDoc ['3'] with
    Dotenv := [".env".toList]
    Env := { Mapping := [("FOO".toList, { Static := "root".toList, Sh := [] })] } }

/-- The scenario of the dotenv overlay: `/p/.env` holds `FOO=fromfile` and
`BAR=fromfile`. -/
def dotenvWorld : World :=
  tableWorld [("/p/Taskfile.yml".toList, dotenvDoc)] []
    [("/p/.env".toList, [("FOO".toList, "fromfile".toList), ("BAR".toList, "fromfile".toList)])]

/-- A root of version 3 with the single include `inc: inc.yml`. -/
def rootWithInclude (version : Str) (advanced : Bool) : taskfile.Taskfile :=
  { blankDoc version with
    Includes := [("inc".toList,
      { Taskfile := "inc.yml".toList, Dir := "sub".toList, AdvancedImport := advanced })]
    Tasks := [("build".toList, some { Task := [], Dir := [], Cmds := ["make".toList] })] }

/-- A world in which the included `/p/inc.yml` has an include of its own. -/
def nestedWorld : World :=
  tableWorld
    [("/p/Taskfile.yml".toList, rootWithInclude ['3'] false),
     ("/p/inc.yml".toList,
      { blankDoc ['3'] with
        Includes := [("deep".toList,
          { Taskfile := "deep.yml".toList, Dir := [], AdvancedImport := false })] })]
    [] []

/-- A world in which the included `/p/inc.yml`, itself of version 2, declares a
dotenv file. -/
def dotenvIncludeWorld : World :=
  tableWorld
    [("/p/Taskfile.yml".toList, rootWithInclude ['3'] false),
     ("/p/inc.yml".toList, { blankDoc ['2'] with Dotenv := [".env".toList] })]
    [] []

/-- The directory of an included task as the specification states it: under an
advanced import a relative directory (the empty one included) is joined under
the base directory; otherwise it is unchanged. -/
def rebasedDir (advanced : Bool) (base dir : Str) : Str :=
  if advanced && !filepath.IsAbs dir then filepath.Join [base, dir] else dir

/-- The entry `b` handed to the merge corresponds to the loaded entry `a`: same
name and, when `a` has a body, the same task with the directory rebased. -/
def RebasedEntry (advanced : Bool) (base : Str) (a b : Str × Option taskfile.Task) : Prop :=
  b.1 = a.1 ∧ ∀ task, a.2 = some task →
    b.2 = some { task with Dir := rebasedDir advanced base task.Dir }

/-- An included document with a relative, an absolute and an empty directory. -/
def includedThree : taskfile.Taskfile :=
  { blankDoc ['3'] with
    Tasks := [("a".toList, some { Task := [], Dir := "rel".toList, Cmds := [] }),
              ("b".toList, some { Task := [], Dir := "/abs".toList, Cmds := [] }),
              ("c".toList, some { Task := [], Dir := [], Cmds := [] })] }

/-- A world with an advanced import of `/p/inc.yml`, base directory `sub`. -/
def advancedWorld : World :=
  tableWorld
    [("/p/Taskfile.yml".toList, rootWithInclude ['3'] true),
     ("/p/inc.yml".toList, includedThree)]
    [] []

/-- An included document with a task declared with an empty body. -/
def includedNilTask : taskfile.Taskfile :=
  { blankDoc ['3'] with
    Tasks := [("a".toList, some { Task := [], Dir := "rel".toList, Cmds := [] }),
              ("empty".toList, none)] }

/-- A world with an advanced import of a document that has a task with an empty
body. -/
def nilTaskWorld : World :=
  tableWorld
    [("/p/Taskfile.yml".toList, rootWithInclude ['3'] true),
     ("/p/inc.yml".toList, includedNilTask)]
    [] []

/-- A root of version 3 with a task declared with an empty body. -/
def rootNilTask : taskfile.Taskfile :=
  { blankDoc ['3'] with
    Tasks := [("build".toList, some { Task := [], Dir := [], Cmds := ["make".toList] }),
              ("empty".toList, none)] }

/-- A world whose only file is the root `/p/Taskfile.yml` with a task declared
with an empty body. -/
def nilRootWorld : World := tableWorld [("/p/Taskfile.yml".toList, rootNilTask)] [] []

/-- The document `Taskfile` returns in `nilRootWorld`. -/
def nilRootResult : taskfile.Taskfile :=
  { blankDoc ['3'] with
    Tasks := [("build".toList, some { Task := "build".toList, Dir := [], Cmds := ["make".toList] }),
              ("empty".toList, some { Task := "empty".toList, Dir := [], Cmds := [] })] }

/-- The included document of `advancedWorld` as handed to the merge. -/
def includedThreeRebased : taskfile.Taskfile :=
  { blankDoc ['3'] with
    Tasks := [("a".toList, some { Task := [], Dir := "sub/rel".toList, Cmds := [] }),
              ("b".toList, some { Task := [], Dir := "/abs".toList, Cmds := [] }),
              ("c".toList, some { Task := [], Dir := "sub".toList, Cmds := [] })] }

/-- A legacy root (version 2) that declares an include and a dotenv file. -/
def legacyRoot : taskfile.Taskfile :=
  { rootWithInclude ['2'] false with Dotenv := [".env".toList] }

/-- The included document of the legacy scenario. -/
def legacyIncluded : taskfile.Taskfile :=
  { blankDoc ['2'] with
    Tasks := [("a".toList, some { Task := [], Dir := [], Cmds := [] })] }

/-- A world with the legacy root `/p/Taskfile.yml`, the included `/p/inc.yml`
and the dotenv file `/p/.env`. -/
def legacyWorld : World :=
  tableWorld [("/p/Taskfile.yml".toList, legacyRoot), ("/p/inc.yml".toList, legacyIncluded)] []
    [("/p/.env".toList, [("FOO".toList, "fromfile".toList)])]

/-- The same world with the includes and the dotenv list of the root emptied. -/
def legacyWorldEmptied : World :=
  tableWorld
    [("/p/Taskfile.yml".toList, { legacyRoot with Includes := [], Dotenv := [] }),
     ("/p/inc.yml".toList, legacyIncluded)] []
    [("/p/.env".toList, [("FOO".toList, "fromfile".toList)])]

/-- The platform-variant document of the ancestor scenario. -/
def variantDoc : taskfile.Taskfile :=
  { blankDoc ['2'] with
    Tasks := [("os".toList, some { Task := [], Dir := [], Cmds := [] })] }

/-- A world with the legacy root `/p/Taskfile.yml` and its sibling
`/p/Taskfile_linux.yml`; nothing in `/p/q`. -/
def ancestorWorld : World :=
  tableWorld
    [("/p/Taskfile.yml".toList, blankDoc ['2']),
     ("/p/Taskfile_linux.yml".toList, variantDoc)] ["/p/q".toList] []

/-- The path of the platform-variant file that `Taskfile` probes: in the
absolute starting directory. -/
def variantPath (w : World) (dir : Str) : Str :=
  filepath.Join [absDir w dir, "Taskfile_".toList ++ w.GOOS ++ ".yml".toList]

/-- The document `Taskfile` returns in `legacyWorld`. -/
def legacyResult : taskfile.Taskfile :=
  { legacyRoot with
    Tasks := [("build".toList, some { Task := "build".toList, Dir := [], Cmds := ["make".toList] }),
              ("inc:a".toList, some { Task := "inc:a".toList, Dir := [], Cmds := [] })] }

/-- The document `Taskfile` returns in `legacyWorldEmptied`. -/
def legacyEmptiedResult : taskfile.Taskfile :=
  { legacyRoot with
    Includes := []
    Dotenv := []
    Tasks := [("build".toList,
      some { Task := "build".toList, Dir := [], Cmds := ["make".toList] })] }

/-- What the run `run` shows of the include `(nspace, inc)` of a legacy root,
met when the document is `t1`: the path as declared (not templated) is stat'ed
and a failed stat is the error of the run; when the stat succeeds and the file
loads, the file is opened, a nested include is the fixed error of the run, and
otherwise, whatever dotenv list the included document declares, the document
is handed to the merge under the namespace, its tasks rebased under the base
directory as declared when the import is advanced (the merge is reached when
the import is not advanced or every task has a body). -/
def LegacyIncludeProcessed (w : World) (dir : Str) (run : Run taskfile.Taskfile)
    (t1 : taskfile.Taskfile) (nspace : Str) (inc : taskfile.IncludedTaskfile) : Prop :=
  Event.Stat (includePath dir inc.Taskfile) ∈ run.events ∧
  (∀ e b, w.Stat (includePath dir inc.Taskfile) = StatResult.error e b →
    run.result = Res.err e) ∧
  ∀ isDir idoc, w.Stat (includePath dir inc.Taskfile) = StatResult.info isDir →
    (read.readTaskfile w (includeFile (includePath dir inc.Taskfile) isDir)).result =
      Res.ok idoc →
    Event.Open (includeFile (includePath dir inc.Taskfile) isDir) ∈ run.events ∧
    (idoc.Includes ≠ [] → run.result = Res.err Err.IncludedTaskfilesCantHaveIncludes) ∧
    (idoc.Includes = [] → (inc.AdvancedImport = false ∨ ∀ e ∈ idoc.Tasks, e.2 ≠ none) →
      ∃ src, List.Forall₂ (RebasedEntry inc.AdvancedImport inc.Dir) idoc.Tasks src.Tasks ∧
        Event.Merge t1 src [nspace] ∈ run.events)

/-- An included document of version 2 that declares a dotenv file. -/
def legacyIncludedDotenv : taskfile.Taskfile :=
  { legacyIncluded with Dotenv := [".env".toList] }

/-- The legacy world with an included document that declares a dotenv file. -/
def legacyDotenvIncludeWorld : World :=
  tableWorld
    [("/p/Taskfile.yml".toList, legacyRoot), ("/p/inc.yml".toList, legacyIncludedDotenv)] []
    [("/p/.env".toList, [("FOO".toList, "fromfile".toList)])]

/-! ## Lemmas on `strings` -/

theorem Split_ne_nil (s : Str) (sep : Char) : strings.Split s sep ≠ [] := by
  induction s with
  | nil => simp [strings.Split]
  | cons c cs ih =>
    unfold strings.Split
    split
    · simp
    · split <;> simp

theorem Split_no_sep (x : Str) (sep : Char) (h : sep ∉ x) : strings.Split x sep = [x] := by
  induction x with
  | nil => simp [strings.Split]
  | cons c cs ih =>
    have hc : c ≠ sep := fun e => h (by simp [e])
    have hcs : sep ∉ cs := fun e => h (by simp [e])
    simp [strings.Split, hc, ih hcs]

theorem Split_append_sep (x rest : Str) (sep : Char) (h : sep ∉ x) :
    strings.Split (x ++ sep :: rest) sep = x :: strings.Split rest sep := by
  induction x with
  | nil => simp [strings.Split]
  | cons c cs ih =>
    have hc : c ≠ sep := fun e => h (by simp [e])
    have hcs : sep ∉ cs := fun e => h (by simp [e])
    simp [strings.Split, hc, ih hcs]

theorem Split_Join (comps : List Str) (sep : Char) (hne : comps ≠ [])
    (h : ∀ c ∈ comps, sep ∉ c) : strings.Split (strings.Join comps [sep]) sep = comps := by
  induction comps with
  | nil => exact absurd rfl hne
  | cons x rest ih =>
    cases rest with
    | nil => simpa [strings.Join] using Split_no_sep x sep (h x (by simp))
    | cons y more =>
      have hx : sep ∉ x := h x (by simp)
      have hrest : ∀ c ∈ y :: more, sep ∉ c := fun c hc => h c (List.mem_cons_of_mem _ hc)
      simp only [strings.Join, List.append_assoc, List.singleton_append]
      rw [Split_append_sep x _ sep hx, ih (by simp) hrest]

theorem Join_Split (s : Str) (sep : Char) : strings.Join (strings.Split s sep) [sep] = s := by
  induction s with
  | nil => simp [strings.Split, strings.Join]
  | cons c cs ih =>
    unfold strings.Split
    split
    · rename_i hc
      cases hs : strings.Split cs sep with
      | nil => exact absurd hs (Split_ne_nil cs sep)
      | cons f fs =>
        rw [hs] at ih
        simp [strings.Join, ih, hc]
    · cases hs : strings.Split cs sep with
      | nil => exact absurd hs (Split_ne_nil cs sep)
      | cons f fs =>
        rw [hs] at ih
        cases fs with
        | nil => simpa [strings.Join] using ih
        | cons g gs =>
          simp only [strings.Join, List.cons_append] at ih ⊢
          rw [ih]

theorem Join_length_ge (comps : List Str) (sep : Str) (h : ∀ c ∈ comps, c ≠ []) :
    comps.length ≤ (strings.Join comps sep).length := by
  induction comps with
  | nil => simp
  | cons x rest ih =>
    have hx : 1 ≤ x.length := List.length_pos.mpr (h x (by simp))
    cases rest with
    | nil => simpa [strings.Join] using hx
    | cons y more =>
      have := ih (fun c hc => h c (List.mem_cons_of_mem _ hc))
      simp only [strings.Join, List.length_append, List.length_cons] at this ⊢
      omega

theorem Join_dropLast_length_le (frags : List Str) (sep : Str) :
    (strings.Join frags.dropLast sep).length ≤ (strings.Join frags sep).length := by
  induction frags with
  | nil => simp
  | cons x rest ih =>
    cases rest with
    | nil => simp [strings.Join]
    | cons y more =>
      cases more with
      | nil => simp [strings.Join, List.dropLast]
      | cons z more2 =>
        simp only [strings.Join, List.dropLast, List.length_append] at ih ⊢
        omega

theorem absPath_eq_root_iff (comps : List Str) (h : ∀ c ∈ comps, c ≠ []) :
    absPath comps = ['/'] ↔ comps = [] := by
  constructor
  · intro e
    cases comps with
    | nil => rfl
    | cons x rest =>
      have hl := Join_length_ge (x :: rest) filepath.Separator h
      have : (absPath (x :: rest)).length = 1 := by rw [e]; rfl
      simp [absPath] at this hl
      rw [this] at hl
      simp at hl
  · intro e
    subst e
    rfl

theorem Split_absPath (comps : List Str) (hne : comps ≠ []) (h : ∀ c ∈ comps, '/' ∉ c) :
    strings.Split (absPath comps) '/' = [] :: comps := by
  have := Split_Join comps '/' hne h
  simp [absPath, strings.Split, filepath.Separator, this]

theorem goSlice_mid {α : Type} (x : α) (xs : List α) (hne : xs ≠ []) :
    goSlice (x :: xs) 1 ((x :: xs).length - 1) = some xs.dropLast := by
  have hpos : 1 ≤ xs.length := List.length_pos.mpr hne
  obtain ⟨n, hn⟩ : ∃ n, xs.length = n + 1 := ⟨xs.length - 1, by omega⟩
  simp [goSlice, hn, List.dropLast_eq_take]

theorem goSlice_single {α : Type} (x : α) : goSlice [x] 1 ([x].length - 1) = none := by
  simp [goSlice]

/-! ## The upward search -/

theorem ValidComps.take {comps : List Str} (h : ValidComps comps) (n : Nat) :
    ValidComps (comps.take n) := fun c hc => h c (List.mem_of_mem_take hc)

theorem take_succ_dropLast {α : Type} (l : List α) (n : Nat) (h : n + 1 ≤ l.length) :
    (l.take (n + 1)).dropLast = l.take n := by
  rw [List.dropLast_eq_take, List.take_take, List.length_take]
  congr 1
  omega

/-- One failed probe below the root: the loop continues in the parent. -/
theorem findPathLoop_miss (w : World) (anker ep : Str) (fuel : Nat) (comps : List Str)
    (hne : comps ≠ []) (hv : ValidComps comps)
    (hstat : (w.Stat (filepath.Join [absPath comps, ep])).isOk = false) :
    read.findPathLoop w anker ep (fuel + 1) (absPath comps) =
      (read.findPathLoop w anker ep fuel (absPath comps.dropLast)).map
        (Run.after (Event.Stat (filepath.Join [absPath comps, ep]))) := by
  have hroot : absPath comps ≠ ['/'] := fun e =>
    hne ((absPath_eq_root_iff comps (fun c hc => (hv c hc).1)).mp e)
  have hsplit := Split_absPath comps hne (fun c hc => (hv c hc).2)
  simp only [read.findPathLoop, hstat, hroot, hsplit, goSlice_mid _ comps hne]
  simp [absPath]

/-- The probe succeeds: the loop stops with the probed path. -/
theorem findPathLoop_hit (w : World) (anker ep : Str) (fuel : Nat) (dir : Str)
    (hstat : (w.Stat (filepath.Join [dir, ep])).isOk = true) :
    read.findPathLoop w anker ep (fuel + 1) dir =
      some ⟨[Event.Stat (filepath.Join [dir, ep])], Res.ok (filepath.Join [dir, ep])⟩ := by
  simp [read.findPathLoop, hstat]

/-- The loop climbs `d` levels over failed probes and stops at the first level
where the probe succeeds. -/
theorem findPathLoop_climb (w : World) (anker ep : Str) (comps : List Str)
    (hv : ValidComps comps) (k : Nat)
    (hex : (w.Stat (filepath.Join [absPath (comps.take k), ep])).isOk = true) :
    ∀ (d fuel : Nat), k + d ≤ comps.length → d < fuel →
      (∀ j, k < j → j ≤ k + d →
        (w.Stat (filepath.Join [absPath (comps.take j), ep])).isOk = false) →
      ∃ r, read.findPathLoop w anker ep fuel (absPath (comps.take (k + d))) = some r ∧
        r.result = Res.ok (filepath.Join [absPath (comps.take k), ep]) := by
  intro d
  induction d with
  | zero =>
    intro fuel _ hf _
    obtain ⟨f, rfl⟩ : ∃ f, fuel = f + 1 := ⟨fuel - 1, by omega⟩
    exact ⟨_, findPathLoop_hit w anker ep f _ hex, rfl⟩
  | succ d ih =>
    intro fuel hle hf hno
    obtain ⟨f, rfl⟩ : ∃ f, fuel = f + 1 := ⟨fuel - 1, by omega⟩
    have hlen : (comps.take (k + (d + 1))).length = k + (d + 1) := by
      rw [List.length_take]; omega
    have hne : comps.take (k + (d + 1)) ≠ [] := by
      intro e; rw [e] at hlen; simp at hlen; omega
    have hmiss := findPathLoop_miss w anker ep f _ hne (hv.take _)
      (hno (k + (d + 1)) (by omega) (by omega))
    have hdl : (comps.take (k + (d + 1))).dropLast = comps.take (k + d) :=
      take_succ_dropLast comps (k + d) (by omega)
    rw [hdl] at hmiss
    obtain ⟨r, hr, hres⟩ := ih f (by omega) (by omega)
      (fun j hj hj2 => hno j hj (by omega))
    refine ⟨Run.after (Event.Stat
      (filepath.Join [absPath (comps.take (k + (d + 1))), ep])) r, ?_, ?_⟩
    · rw [hmiss, hr]; rfl
    · simpa [Run.after] using hres

/-- The loop climbs to the root over failed probes and fails there with the
message built from `anker`. -/
theorem findPathLoop_exhaust (w : World) (anker ep : Str) (comps : List Str)
    (hv : ValidComps comps) :
    ∀ (n fuel : Nat), n ≤ comps.length → n < fuel →
      (∀ j, j ≤ n → (w.Stat (filepath.Join [absPath (comps.take j), ep])).isOk = false) →
      ∃ r, read.findPathLoop w anker ep fuel (absPath (comps.take n)) = some r ∧
        r.result = Res.err (Err.errorf (read.notFoundMessage anker)) := by
  intro n
  induction n with
  | zero =>
    intro fuel _ hf hno
    obtain ⟨f, rfl⟩ : ∃ f, fuel = f + 1 := ⟨fuel - 1, by omega⟩
    have h0 := hno 0 (le_refl 0)
    simp only [List.take_zero] at h0 ⊢
    refine ⟨⟨[Event.Stat (filepath.Join [absPath [], ep])], _⟩, ?_, rfl⟩
    have hroot : absPath [] = ['/'] := rfl
    rw [hroot] at h0 ⊢
    simp [read.findPathLoop, h0]
  | succ n ih =>
    intro fuel hle hf hno
    obtain ⟨f, rfl⟩ : ∃ f, fuel = f + 1 := ⟨fuel - 1, by omega⟩
    have hlen : (comps.take (n + 1)).length = n + 1 := by
      rw [List.length_take]; omega
    have hne : comps.take (n + 1) ≠ [] := by
      intro e; rw [e] at hlen; simp at hlen
    have hmiss := findPathLoop_miss w anker ep f _ hne (hv.take _) (hno (n + 1) (le_refl _))
    rw [take_succ_dropLast comps n hle] at hmiss
    obtain ⟨r, hr, hres⟩ := ih f (by omega) (by omega) (fun j hj => hno j (by omega))
    refine ⟨Run.after (Event.Stat
      (filepath.Join [absPath (comps.take (n + 1)), ep])) r, ?_, ?_⟩
    · rw [hmiss, hr]; rfl
    · simpa [Run.after] using hres

theorem absPath_length_ge (comps : List Str) (hv : ValidComps comps) :
    comps.length < (absPath comps).length + 1 := by
  have := Join_length_ge comps filepath.Separator (fun c hc => (hv c hc).1)
  simp only [absPath, List.length_cons]
  omega

theorem Join_dropLast_length_lt (frags : List Str) (sep : Str) (hsep : sep ≠ [])
    (h : 2 ≤ frags.length) :
    (strings.Join frags.dropLast sep).length < (strings.Join frags sep).length := by
  have hs : 1 ≤ sep.length := List.length_pos.mpr hsep
  induction frags with
  | nil => simp at h
  | cons x rest ih =>
    cases rest with
    | nil => simp at h
    | cons y more =>
      cases more with
      | nil =>
        simp only [strings.Join, List.dropLast, List.length_append]
        omega
      | cons z more2 =>
        have := ih (by simp)
        simp only [strings.Join, List.dropLast, List.length_append] at this ⊢
        omega

/-- The parent computed by `findPath` is shorter than the directory it is
computed from, for every string other than `/`. -/
theorem parent_length_lt (dir : Str) (mid : List Str) (hroot : dir ≠ ['/'])
    (hmid : goSlice (strings.Split dir '/') 1 ((strings.Split dir '/').length - 1) = some mid) :
    ('/' :: strings.Join mid filepath.Separator).length < dir.length := by
  have hjs := Join_Split dir '/'
  cases hs : strings.Split dir '/' with
  | nil => exact absurd hs (Split_ne_nil dir '/')
  | cons x rest =>
    rw [hs] at hmid hjs
    cases rest with
    | nil => rw [goSlice_single] at hmid; exact absurd hmid (by simp)
    | cons y more =>
      rw [goSlice_mid x (y :: more) (by simp)] at hmid
      have hm : mid = (y :: more).dropLast := (Option.some.inj hmid).symm
      subst hm
      cases more with
      | nil =>
        have hlen : dir.length = x.length + 1 + y.length := by
          rw [← hjs]; simp [strings.Join]; omega
        have hxy : ¬ (x = [] ∧ y = []) := by
          rintro ⟨hx, hy⟩
          apply hroot
          rw [← hjs, hx, hy]
          rfl
        have : 0 < x.length + y.length := by
          rcases x with _ | ⟨a, x⟩
          · rcases y with _ | ⟨b, y⟩
            · exact absurd ⟨rfl, rfl⟩ hxy
            · simp
          · simp
        simp only [List.dropLast, strings.Join, List.length_cons, List.length_nil]
        omega
      | cons z more2 =>
        have hlt := Join_dropLast_length_lt (y :: z :: more2) ['/'] (by simp) (by simp)
        have hlen : dir.length = x.length + 1 + (strings.Join (y :: z :: more2) ['/']).length := by
          rw [← hjs]; simp [strings.Join]; omega
        simp only [filepath.Separator, List.length_cons] at hlt ⊢
        omega

/-- The budget of `findPath` is never exhausted: with more fuel than `dir` has
characters the loop ends, for every world, directory and entrypoint. -/
theorem findPathLoop_fuel (w : World) (anker ep : Str) :
    ∀ (fuel : Nat) (dir : Str), dir.length < fuel →
      (read.findPathLoop w anker ep fuel dir).isSome = true := by
  intro fuel
  induction fuel with
  | zero => intro dir h; simp at h
  | succ f ih =>
    intro dir h
    unfold read.findPathLoop
    simp only
    split
    · rfl
    · split
      · rfl
      · rename_i hroot
        split
        · rfl
        · rename_i mid hmid
          have := parent_length_lt dir mid hroot hmid
          have := ih ('/' :: strings.Join mid filepath.Separator) (by omega)
          simpa using this

/-- The function `findPath` always ends: it is the result of its loop. -/
theorem findPath_total (w : World) (dir ep : Str) :
    ∃ r, read.findPathLoop w (filepath.Join [dir, ep]) ep (dir.length + 1) dir = some r ∧
      read.findPath w dir ep = r := by
  have h := findPathLoop_fuel w (filepath.Join [dir, ep]) ep (dir.length + 1) dir (by omega)
  obtain ⟨r, hr⟩ := Option.isSome_iff_exists.mp h
  exact ⟨r, hr, by simp [read.findPath, hr]⟩

/-! ## Clean absolute paths -/

theorem Split_mem_no_sep (s : Str) (sep : Char) : ∀ f ∈ strings.Split s sep, sep ∉ f := by
  induction s with
  | nil => intro f hf; simp [strings.Split] at hf; subst hf; simp
  | cons c cs ih =>
    intro f hf
    unfold strings.Split at hf
    split at hf
    · rcases List.mem_cons.mp hf with h | h
      · subst h; simp
      · exact ih f h
    · rename_i hc
      cases hs : strings.Split cs sep with
      | nil => exact absurd hs (Split_ne_nil cs sep)
      | cons g gs =>
        rw [hs] at hf ih
        simp only [List.mem_cons] at hf
        rcases hf with h | h
        · subst h
          have := ih g (List.mem_cons_self _ _)
          intro hmem
          rcases List.mem_cons.mp hmem with h1 | h1
          · exact hc h1.symm
          · exact this h1
        · exact ih f (List.mem_cons_of_mem _ h)

theorem cleanStep_mem (rooted : Bool) (stack : List Str) (c : Str) :
    ∀ x ∈ filepath.cleanStep rooted stack c, x ∈ stack ∨ (x = c ∧ c ≠ []) := by
  intro x hx
  unfold filepath.cleanStep at hx
  split at hx
  · exact Or.inl hx
  · rename_i hne
    have hc : c ≠ [] := fun e => hne (Or.inl e)
    split at hx
    · split at hx
      · split at hx
        · simp at hx
        · simp only [List.mem_singleton] at hx; exact Or.inr ⟨hx, hc⟩
      · split at hx
        · rcases List.mem_cons.mp hx with h | h
          · exact Or.inr ⟨h, hc⟩
          · exact Or.inl h
        · exact Or.inl (List.mem_cons_of_mem _ hx)
    · rcases List.mem_cons.mp hx with h | h
      · exact Or.inr ⟨h, hc⟩
      · exact Or.inl h

theorem foldl_cleanStep_mem (rooted : Bool) (cs : List Str) :
    ∀ stack : List Str, ∀ x ∈ cs.foldl (filepath.cleanStep rooted) stack,
      x ∈ stack ∨ (x ∈ cs ∧ x ≠ []) := by
  induction cs with
  | nil => intro stack x hx; exact Or.inl hx
  | cons c rest ih =>
    intro stack x hx
    simp only [List.foldl_cons] at hx
    rcases ih _ x hx with h | ⟨h1, h2⟩
    · rcases cleanStep_mem rooted stack c x h with h3 | ⟨h3, h4⟩
      · exact Or.inl h3
      · subst h3; exact Or.inr ⟨List.mem_cons_self _ _, h4⟩
    · exact Or.inr ⟨List.mem_cons_of_mem _ h1, h2⟩

/-- Every absolute clean path is `/c1/.../cn` for non-empty elements without a
slash: the paths of the theorems on `findPath` cover all of them. -/
theorem clean_abs_is_absPath (dir : Str) (habs : filepath.IsAbs dir = true)
    (hclean : filepath.Clean dir = dir) : ∃ comps, ValidComps comps ∧ dir = absPath comps := by
  refine ⟨((strings.Split dir '/').foldl (filepath.cleanStep true) []).reverse, ?_, ?_⟩
  · intro c hc
    rcases foldl_cleanStep_mem true _ [] c (List.mem_reverse.mp hc) with h | ⟨h1, h2⟩
    · simp at h
    · exact ⟨h2, Split_mem_no_sep dir '/' c h1⟩
  · have : filepath.Clean dir =
        absPath ((strings.Split dir '/').foldl (filepath.cleanStep true) []).reverse := by
      simp [filepath.Clean, habs, absPath]
    rw [← this, hclean]

theorem foldl_cleanStep_names (rooted : Bool) (cs : List Str) (h : ∀ c ∈ cs, IsName c) :
    ∀ stack : List Str, cs.foldl (filepath.cleanStep rooted) stack = cs.reverse ++ stack := by
  induction cs with
  | nil => intro stack; rfl
  | cons c rest ih =>
    intro stack
    obtain ⟨h1, _, h3, h4⟩ := h c (List.mem_cons_self _ _)
    have hstep : filepath.cleanStep rooted stack c = c :: stack := by
      simp [filepath.cleanStep, h1, h3, h4]
    simp only [List.foldl_cons, hstep, List.reverse_cons, List.append_assoc,
      List.singleton_append]
    exact ih (fun x hx => h x (List.mem_cons_of_mem _ hx)) _

theorem absPath_ne_nil (comps : List Str) : absPath comps ≠ [] := by simp [absPath]

theorem IsAbs_absPath (comps : List Str) : filepath.IsAbs (absPath comps) = true := by
  simp [filepath.IsAbs, absPath, filepath.Separator, strings.HasPrefix]

/-- The function `filepath.Clean` leaves a clean absolute path as it is. -/
theorem Clean_absPath (comps : List Str) (h : ∀ c ∈ comps, IsName c) :
    filepath.Clean (absPath comps) = absPath comps := by
  cases comps with
  | nil => decide
  | cons x rest =>
    have hs := Split_absPath (x :: rest) (by simp) (fun c hc => (h c hc).2.1)
    have hf := foldl_cleanStep_names true (x :: rest) h []
    have h0 : filepath.cleanStep true [] [] = [] := by simp [filepath.cleanStep]
    simp only [filepath.Clean, IsAbs_absPath, hs, List.foldl_cons, h0, hf, List.append_nil,
      List.reverse_reverse, if_true]
    simp [absPath]

theorem strings_Join_snoc (comps : List Str) (c sep : Str) (hne : comps ≠ []) :
    strings.Join (comps ++ [c]) sep = strings.Join comps sep ++ sep ++ c := by
  induction comps with
  | nil => exact absurd rfl hne
  | cons x rest ih =>
    cases rest with
    | nil => simp [strings.Join]
    | cons y more =>
      have := ih (by simp)
      have hstep : strings.Join (x :: y :: more ++ [c]) sep =
          x ++ sep ++ strings.Join (y :: more ++ [c]) sep := rfl
      rw [hstep, this]
      simp [strings.Join, List.append_assoc]

/-- Joining a file name to a clean absolute directory appends it as the last
element. -/
theorem Join_absPath_name (comps : List Str) (ep : Str) (h : ∀ c ∈ comps, IsName c)
    (hep : IsName ep) : filepath.Join [absPath comps, ep] = absPath (comps ++ [ep]) := by
  have hall : ∀ c ∈ comps ++ [ep], IsName c := by
    intro c hc
    rcases List.mem_append.mp hc with h1 | h1
    · exact h c h1
    · rw [List.mem_singleton.mp h1]; exact hep
  cases comps with
  | nil =>
    have hs : strings.Split ('/' :: '/' :: ep) '/' = [[], [], ep] := by
      simp [strings.Split, Split_no_sep ep '/' hep.2.1]
    have hstep : filepath.cleanStep true [] ep = [ep] := by
      simp [filepath.cleanStep, hep.1, hep.2.2.1, hep.2.2.2]
    have h0 : filepath.cleanStep true [] [] = [] := by simp [filepath.cleanStep]
    simp [filepath.Join, absPath, strings.Join, filepath.Separator, filepath.Clean,
      filepath.IsAbs, strings.HasPrefix, hs, hstep, h0]
  | cons x rest =>
    have hj : strings.Join [absPath (x :: rest), ep] filepath.Separator =
        absPath (x :: rest ++ [ep]) := by
      have := strings_Join_snoc (x :: rest) ep filepath.Separator (by simp)
      simp only [absPath, strings.Join, List.cons_append] at this ⊢
      rw [this]
    simp only [filepath.Join, ne_eq, absPath_ne_nil, not_false_eq_true, if_true, hj]
    exact Clean_absPath _ hall

theorem absPath_injective (a b : List Str) (ha : ValidComps a) (hb : ValidComps b)
    (h : absPath a = absPath b) : a = b := by
  by_cases hae : a = []
  · subst hae
    exact ((absPath_eq_root_iff b (fun c hc => (hb c hc).1)).mp h.symm).symm
  · by_cases hbe : b = []
    · subst hbe
      exact (absPath_eq_root_iff a (fun c hc => (ha c hc).1)).mp h
    · have h1 := Split_absPath a hae (fun c hc => (ha c hc).2)
      have h2 := Split_absPath b hbe (fun c hc => (hb c hc).2)
      rw [h] at h1
      rw [h1] at h2
      exact (List.cons.inj h2).2

/-- Below the root, the path probed in the starting directory is not the path
probed at the root. -/
theorem probe_ne_root_probe (comps : List Str) (ep : Str) (h : ∀ c ∈ comps, IsName c)
    (hep : IsName ep) (hne : comps ≠ []) :
    filepath.Join [absPath comps, ep] ≠ filepath.Join [['/'], ep] := by
  have h1 := Join_absPath_name comps ep h hep
  have h2 := Join_absPath_name [] ep (by simp) hep
  have hroot : absPath [] = ['/'] := rfl
  rw [hroot] at h2
  rw [h1, h2]
  intro e
  have hv : ∀ l : List Str, (∀ c ∈ l, IsName c) → ValidComps l :=
    fun l hl c hc => ⟨(hl c hc).1, (hl c hc).2.1⟩
  have := absPath_injective _ _
    (hv (comps ++ [ep]) (by
      intro c hc
      rcases List.mem_append.mp hc with h3 | h3
      · exact h c h3
      · rw [List.mem_singleton.mp h3]; exact hep))
    (hv ([] ++ [ep]) (by intro c hc; simp at hc; rw [hc]; exact hep)) e
  have hlen := congrArg List.length this
  simp at hlen
  exact hne hlen

/-! ## The claims on `findPath` -/

/-- C1: for an absolute clean directory `/c1/.../cn`, an entrypoint and a world
in which the probe `filepath.Join(a, entrypoint)` succeeds for the ancestor `a`
made of the first `k` elements and fails for every deeper ancestor and for the
directory itself, `findPath` ends without error and returns
`filepath.Join(a, entrypoint)` for that closest `a`. -/
theorem findPath_returns_closest (w : World) (comps : List Str) (ep : Str) (k : Nat)
    (hv : ValidComps comps) (hk : k ≤ comps.length)
    (hex : (w.Stat (filepath.Join [absPath (comps.take k), ep])).isOk = true)
    (hno : ∀ j, k < j → j ≤ comps.length →
      (w.Stat (filepath.Join [absPath (comps.take j), ep])).isOk = false) :
    (read.findPath w (absPath comps) ep).result =
      Res.ok (filepath.Join [absPath (comps.take k), ep]) := by
  obtain ⟨r, hr, hfp⟩ := findPath_total w (absPath comps) ep
  have hkd : k + (comps.length - k) = comps.length := by omega
  obtain ⟨r2, hr2, hres⟩ := findPathLoop_climb w (filepath.Join [absPath comps, ep]) ep comps hv k
    hex (comps.length - k) ((absPath comps).length + 1) (by omega)
    (by have := absPath_length_ge comps hv; omega)
    (fun j hj hj2 => hno j hj (by omega))
  rw [hkd, List.take_length] at hr2
  rw [hfp]
  rw [hr] at hr2
  rw [Option.some.inj hr2]
  exact hres

/-- Witness of C1: from `/p/q/r`, with `/p/Taskfile.yml` the only file, the
search returns `/p/Taskfile.yml`. -/
theorem findPath_returns_closest_witness :
    (read.findPath worldP "/p/q/r".toList "Taskfile.yml".toList).result =
      Res.ok "/p/Taskfile.yml".toList :=
  findPath_returns_closest worldP ["p".toList, "q".toList, "r".toList] "Taskfile.yml".toList 1
    (by unfold ValidComps; decide) (by decide) (by decide)
    (by intro j h1 h2; have h3 : j ≤ 3 := h2; interval_cases j <;> decide)

/-- C2: for an absolute clean directory `/c1/.../cn` and a world in which the
probe fails for the directory and all its ancestors up to the root, `findPath`
ends with the error whose message is `task: No Taskfile found on "P". Use "task
--init" to create a new one`, where `P` is `filepath.Join(dir, entrypoint)` for
the directory as given (the value `Res.err` stands for the Go return
`"", err`). For a clean directory below the root and a file name as
entrypoint, `P` is not the path probed at the root. -/
theorem findPath_notFound_names_start (w : World) (comps : List Str) (ep : Str)
    (hv : ValidComps comps)
    (hno : ∀ j, j ≤ comps.length →
      (w.Stat (filepath.Join [absPath (comps.take j), ep])).isOk = false) :
    (read.findPath w (absPath comps) ep).result =
        Res.err (Err.errorf ("task: No Taskfile found on \"".toList ++
          filepath.Join [absPath comps, ep] ++
          "\". Use \"task --init\" to create a new one".toList)) ∧
      ((∀ c ∈ comps, IsName c) → IsName ep → comps ≠ [] →
        filepath.Join [absPath comps, ep] ≠ filepath.Join [['/'], ep]) := by
  refine ⟨?_, fun hc hep hne => probe_ne_root_probe comps ep hc hep hne⟩
  obtain ⟨r, hr, hfp⟩ := findPath_total w (absPath comps) ep
  obtain ⟨r2, hr2, hres⟩ := findPathLoop_exhaust w (filepath.Join [absPath comps, ep]) ep comps hv
    comps.length ((absPath comps).length + 1) (le_refl _)
    (by have := absPath_length_ge comps hv; omega) hno
  rw [List.take_length] at hr2
  rw [hfp]
  rw [hr] at hr2
  rw [Option.some.inj hr2]
  exact hres

/-- Witness of C2: from `/p/q` in the empty world the error names
`/p/q/Taskfile.yml`. -/
theorem findPath_notFound_names_start_witness :
    (read.findPath emptyWorld "/p/q".toList "Taskfile.yml".toList).result =
      Res.err (Err.errorf ("task: No Taskfile found on \"/p/q/Taskfile.yml\". " ++
        "Use \"task --init\" to create a new one").toList) :=
  (findPath_notFound_names_start emptyWorld ["p".toList, "q".toList] "Taskfile.yml".toList
    (by unfold ValidComps; decide)
    (by intro j h; have h3 : j ≤ 2 := h; interval_cases j <;> decide)).1

/-! ## Runs -/

theorem Run.bind_of_ok {α β : Type} (x : Run α) (f : α → Run β) (a : α)
    (h : x.result = Res.ok a) :
    Run.bind x f = ⟨x.events ++ (f a).events, (f a).result⟩ := by
  simp [Run.bind, h]

theorem Run.bind_of_err {α β : Type} (x : Run α) (f : α → Run β) (e : Err)
    (h : x.result = Res.err e) : Run.bind x f = ⟨x.events, Res.err e⟩ := by
  simp [Run.bind, h]

theorem Run.bind_of_panic {α β : Type} (x : Run α) (f : α → Run β)
    (h : x.result = Res.panic) : Run.bind x f = ⟨x.events, Res.panic⟩ := by
  simp [Run.bind, h]

theorem Run.bind_result_ok {α β : Type} (x : Run α) (f : α → Run β) (b : β)
    (h : (Run.bind x f).result = Res.ok b) :
    ∃ a, x.result = Res.ok a ∧ (f a).result = Res.ok b := by
  cases hx : x.result with
  | ok a => rw [Run.bind_of_ok x f a hx] at h; exact ⟨a, rfl, h⟩
  | err e => rw [Run.bind_of_err x f e hx] at h; cases h
  | panic => rw [Run.bind_of_panic x f hx] at h; cases h

/-- The events of a sequence are events of its first part or of the
continuation. -/
theorem Run.mem_bind_events {α β : Type} (x : Run α) (f : α → Run β) (ev : Event)
    (h : ev ∈ (Run.bind x f).events) :
    ev ∈ x.events ∨ ∃ a, x.result = Res.ok a ∧ ev ∈ (f a).events := by
  cases hx : x.result with
  | ok a =>
    rw [Run.bind_of_ok x f a hx] at h
    rcases List.mem_append.mp h with h | h
    · exact Or.inl h
    · exact Or.inr ⟨a, rfl, h⟩
  | err e => rw [Run.bind_of_err x f e hx] at h; exact Or.inl h
  | panic => rw [Run.bind_of_panic x f hx] at h; exact Or.inl h

theorem Run.lift_events {α : Type} (r : Except Err α) : (Run.lift r).events = [] := by
  cases r <;> rfl

theorem Run.lift_result_ok {α : Type} (r : Except Err α) (a : α) (h : r = Except.ok a) :
    (Run.lift r).result = Res.ok a := by
  subst h; rfl

/-! ## The dotenv overlay -/

theorem mapGet_mapSet {β : Type} (m : List (Str × β)) (k key : Str) (x : β) :
    taskfile.mapGet (taskfile.mapSet m k x) key =
      if k = key then some x else taskfile.mapGet m key := by
  induction m with
  | nil => simp [taskfile.mapSet, taskfile.mapGet]
  | cons e rest ih =>
    obtain ⟨k0, x0⟩ := e
    by_cases h0 : k0 = k
    · subst h0
      by_cases h1 : k0 = key <;> simp [taskfile.mapSet, taskfile.mapGet, h1]
    · by_cases h1 : k0 = key
      · subst h1
        have : ¬ k = k0 := fun e => h0 e.symm
        simp [taskfile.mapSet, taskfile.mapGet, h0, this]
      · simp [taskfile.mapSet, taskfile.mapGet, h0, h1, ih]

/-- One dotenv file over a mapping: bound keys keep their binding, the others
take the static value of the file. -/
theorem overlayEnvs_get (m : List (Str × Str)) (env : taskfile.Vars) (key : Str) :
    taskfile.mapGet (read.overlayEnvs m env).Mapping key =
      match taskfile.mapGet env.Mapping key with
      | some x => some x
      | none => (taskfile.mapGet m key).map fun value => { Static := value, Sh := [] } := by
  induction m generalizing env with
  | nil =>
    simp only [read.overlayEnvs, taskfile.mapGet]
    cases taskfile.mapGet env.Mapping key <;> rfl
  | cons e rest ih =>
    obtain ⟨k, value⟩ := e
    simp only [read.overlayEnvs]
    rw [ih]
    by_cases hb : (taskfile.mapGet env.Mapping k).isSome = true
    · simp only [hb, if_true]
      cases hg : taskfile.mapGet env.Mapping key with
      | some x => rfl
      | none =>
        have hk : k ≠ key := by
          intro e; subst e; rw [hg] at hb; cases hb
        simp [taskfile.mapGet, hk]
    · rw [if_neg hb]
      have hnone : taskfile.mapGet env.Mapping k = none := by
        cases h : taskfile.mapGet env.Mapping k with
        | none => rfl
        | some x => rw [h] at hb; exact absurd rfl hb
      have hset : taskfile.mapGet (env.Set k { Static := value, Sh := [] }).Mapping key =
          if k = key then some { Static := value, Sh := [] }
          else taskfile.mapGet env.Mapping key := mapGet_mapSet env.Mapping k key _
      rw [hset]
      by_cases hk : k = key
      · subst hk
        simp [hnone, taskfile.mapGet]
      · rw [if_neg hk]
        cases taskfile.mapGet env.Mapping key with
        | some x => rfl
        | none => simp [taskfile.mapGet, hk]

theorem firstWriterWins_cons (declared : taskfile.Vars) (m : List (Str × Str))
    (files : List (List (Str × Str))) (key : Str) :
    firstWriterWins (read.overlayEnvs m declared) files key =
      firstWriterWins declared (m :: files) key := by
  simp only [firstWriterWins, overlayEnvs_get, List.findSome?]
  cases taskfile.mapGet declared.Mapping key with
  | some x => rfl
  | none =>
    cases taskfile.mapGet m key with
    | some value => rfl
    | none => rfl

/-- The dotenv loop, when every file that is not missing parses, ends with a
document that differs only in its environment, which is the first-writer-wins
overlay of the files in order. -/
theorem dotenvLoop_spec (w : World) (dir : Str) (paths : List Str) :
    ∀ t : taskfile.Taskfile,
      (∀ p ∈ paths, (∀ e, w.Stat (dotenvPath dir p) ≠ StatResult.error e true) →
        ∃ m, w.godotenvRead (dotenvPath dir p) = Except.ok m) →
      ∃ env, (read.dotenvLoop w dir paths t).result = Res.ok { t with Env := env } ∧
        ∀ key, taskfile.mapGet env.Mapping key =
          firstWriterWins t.Env (dotenvMaps w dir paths) key := by
  induction paths with
  | nil =>
    intro t _
    refine ⟨t.Env, rfl, fun key => ?_⟩
    simp only [dotenvMaps, List.filterMap_nil, firstWriterWins, List.findSome?]
    cases taskfile.mapGet t.Env.Mapping key <;> rfl
  | cons p rest ih =>
    intro t hall
    have hrest : ∀ q ∈ rest, (∀ e, w.Stat (dotenvPath dir q) ≠ StatResult.error e true) →
        ∃ m, w.godotenvRead (dotenvPath dir q) = Except.ok m :=
      fun q hq => hall q (List.mem_cons_of_mem _ hq)
    by_cases hmiss : ∃ e, w.Stat (dotenvPath dir p) = StatResult.error e true
    · obtain ⟨e, he⟩ := hmiss
      obtain ⟨env, hres, hget⟩ := ih t hrest
      refine ⟨env, ?_, fun key => ?_⟩
      · have he2 : w.Stat (if filepath.IsAbs p = true then p else filepath.Join [dir, p]) =
            StatResult.error e true := he
        simp only [read.dotenvLoop, Run.after, he2]
        exact hres
      · rw [hget key]
        simp [dotenvMaps, List.filterMap_cons, he]
    · have hne : ∀ e, w.Stat (dotenvPath dir p) ≠ StatResult.error e true :=
        fun e h => hmiss ⟨e, h⟩
      obtain ⟨m, hm⟩ := hall p (List.mem_cons_self _ _) hne
      obtain ⟨env, hres, hget⟩ := ih { t with Env := read.overlayEnvs m t.Env } hrest
      refine ⟨env, ?_, fun key => ?_⟩
      · have hm2 : w.godotenvRead (if filepath.IsAbs p = true then p else filepath.Join [dir, p]) =
            Except.ok m := hm
        have hstep : read.dotenvLoop w dir (p :: rest) t =
            Run.after (Event.Stat (dotenvPath dir p)) (Run.after (Event.godotenvRead (dotenvPath dir p))
              (Run.bind (Run.lift (w.godotenvRead (dotenvPath dir p))) fun envs =>
                read.dotenvLoop w dir rest { t with Env := read.overlayEnvs envs t.Env })) := by
          simp only [read.dotenvLoop]
          cases hs : w.Stat (if filepath.IsAbs p = true then p else filepath.Join [dir, p]) with
          | info d => rfl
          | error e b =>
            cases b with
            | false => rfl
            | true => exact absurd hs (hne e)
        rw [hstep, hm]
        simpa only [Run.after, Run.lift, Run.bind] using hres
      · rw [hget key]
        have hmaps : dotenvMaps w dir (p :: rest) = m :: dotenvMaps w dir rest := by
          simp only [dotenvMaps, List.filterMap_cons, hm]
        rw [hmaps]
        exact firstWriterWins_cons t.Env m _ key

/-- C4: for a root of version at least 3.0 whose dotenv files, where not
missing, all parse, the dotenv overlay ends with the document changed in its
environment only, and the new environment binds every key first-writer-wins: a
declared key keeps its declared binding, any other key has the static value of
the earliest-listed file that has it, and a key in none of them is unbound. -/
theorem dotenv_overlay_first_writer_wins (w : World) (dir : Str) (v : Float64)
    (t : taskfile.Taskfile) (hv : v.ge3 = true)
    (hparse : ∀ p ∈ t.Dotenv, (∀ e, w.Stat (dotenvPath dir p) ≠ StatResult.error e true) →
      ∃ m, w.godotenvRead (dotenvPath dir p) = Except.ok m) :
    ∃ env, (read.dotenvStage w dir v t).result = Res.ok { t with Env := env } ∧
      ∀ key, taskfile.mapGet env.Mapping key =
        firstWriterWins t.Env (dotenvMaps w dir t.Dotenv) key := by
  simp only [read.dotenvStage, hv, if_true]
  exact dotenvLoop_spec w dir t.Dotenv t hparse

/-- Witness of C4: `FOO: root` declared, `.env` with `FOO=fromfile` and
`BAR=fromfile`: the overlay gives `FOO=root` and `BAR=fromfile`. -/
theorem dotenv_overlay_first_writer_wins_witness :
    ∃ env, (read.dotenvStage dotenvWorld "/p".toList (Float64.finite 3) dotenvDoc).result =
        Res.ok { dotenvDoc with Env := env } ∧
      taskfile.mapGet env.Mapping "FOO".toList = some { Static := "root".toList, Sh := [] } ∧
      taskfile.mapGet env.Mapping "BAR".toList = some { Static := "fromfile".toList, Sh := [] } ∧
      taskfile.mapGet env.Mapping "BAZ".toList = none := by
  obtain ⟨env, hres, hget⟩ := dotenv_overlay_first_writer_wins dotenvWorld "/p".toList
    (Float64.finite 3) dotenvDoc (by decide)
    (by
      intro p hp _
      have hp2 : p = ".env".toList := by simpa [dotenvDoc, blankDoc] using hp
      subst hp2
      exact ⟨_, rfl⟩)
  refine ⟨env, hres, ?_, ?_, ?_⟩
  · rw [hget]; decide
  · rw [hget]; decide
  · rw [hget]; decide

/-! ## The stages of `Taskfile` -/

theorem readTaskfile_events (w : World) (file : Str) :
    (read.readTaskfile w file).events = [Event.Open file] := by
  simp only [read.readTaskfile, Run.after]
  cases h : w.Open file with
  | error e => simp [Run.lift, Run.bind]
  | ok f =>
    cases hd : w.Decode f <;> simp [Run.lift, Run.bind, hd]

theorem findPathLoop_events (w : World) (anker ep : Str) :
    ∀ (fuel : Nat) (dir : Str) (r : Run Str), read.findPathLoop w anker ep fuel dir = some r →
      ∀ e ∈ r.events, ∃ p, e = Event.Stat p := by
  intro fuel
  induction fuel with
  | zero => intro dir r h; simp [read.findPathLoop] at h
  | succ f ih =>
    intro dir r h e he
    unfold read.findPathLoop at h
    simp only at h
    split at h
    · cases h; simp at he; exact ⟨_, he⟩
    · split at h
      · cases h; simp at he; exact ⟨_, he⟩
      · split at h
        · cases h; simp at he; exact ⟨_, he⟩
        · rename_i mid hmid
          cases hr : read.findPathLoop w anker ep f ('/' :: strings.Join mid filepath.Separator) with
          | none => rw [hr] at h; simp at h
          | some r2 =>
            rw [hr] at h
            simp only [Option.map_some'] at h
            cases h
            simp only [Run.after, List.mem_cons] at he
            rcases he with he | he
            · exact ⟨_, he⟩
            · exact ih _ r2 hr e he

theorem findPath_events (w : World) (dir ep : Str) :
    ∀ e ∈ (read.findPath w dir ep).events, ∃ p, e = Event.Stat p := by
  obtain ⟨r, hr, hfp⟩ := findPath_total w dir ep
  rw [hfp]
  exact findPathLoop_events w _ ep _ dir r hr

theorem dotenvLoop_events (w : World) (dir : Str) (paths : List Str) :
    ∀ t : taskfile.Taskfile, ∀ e ∈ (read.dotenvLoop w dir paths t).events,
      (∃ p, e = Event.Stat p) ∨ ∃ p, e = Event.godotenvRead p := by
  induction paths with
  | nil => intro t e he; simp [read.dotenvLoop, Run.pure] at he
  | cons p rest ih =>
    intro t e he
    simp only [read.dotenvLoop, Run.after, List.mem_cons] at he
    rcases he with he | he
    · exact Or.inl ⟨_, he⟩
    · split at he
      · exact ih t e he
      · simp only [List.mem_cons] at he
        rcases he with he | he
        · exact Or.inr ⟨_, he⟩
        · rcases Run.mem_bind_events _ _ e he with h | ⟨envs, _, h⟩
          · rw [Run.lift_events] at h; simp at h
          · exact ih _ e h

/-- The dotenv loop changes the environment of the document only. -/
theorem dotenvLoop_fields (w : World) (dir : Str) (paths : List Str) :
    ∀ t t1 : taskfile.Taskfile, (read.dotenvLoop w dir paths t).result = Res.ok t1 →
      t1 = { t with Env := t1.Env } := by
  induction paths with
  | nil =>
    intro t t1 h
    simp only [read.dotenvLoop, Run.pure] at h
    cases h; rfl
  | cons p rest ih =>
    intro t t1 h
    simp only [read.dotenvLoop, Run.after] at h
    split at h
    · exact ih t t1 h
    · obtain ⟨envs, _, h2⟩ := Run.bind_result_ok _ _ t1 h
      have := ih _ t1 h2
      rw [this]

theorem dotenvStage_fields (w : World) (dir : Str) (v : Float64) (t t1 : taskfile.Taskfile)
    (h : (read.dotenvStage w dir v t).result = Res.ok t1) : t1 = { t with Env := t1.Env } := by
  unfold read.dotenvStage at h
  split at h
  · exact dotenvLoop_fields w dir _ t t1 h
  · simp only [Run.pure] at h; cases h; rfl

theorem dotenvStage_events (w : World) (dir : Str) (v : Float64) (t : taskfile.Taskfile) :
    ∀ e ∈ (read.dotenvStage w dir v t).events,
      (∃ p, e = Event.Stat p) ∨ ∃ p, e = Event.godotenvRead p := by
  intro e he
  unfold read.dotenvStage at he
  split at he
  · exact dotenvLoop_events w dir _ t e he
  · simp [Run.pure] at he

theorem templateInclude_events (w : World) (v : Float64) (inc : taskfile.IncludedTaskfile) :
    ∀ e ∈ (read.templateInclude w v inc).events, ∃ s, e = Event.Replace s := by
  intro e he
  unfold read.templateInclude at he
  split at he
  · simp only [List.mem_cons, List.mem_singleton, List.not_mem_nil, or_false] at he
    rcases he with he | he <;> exact ⟨_, he⟩
  · simp [Run.pure] at he

theorem templateInclude_ge3 (w : World) (v : Float64) (inc : taskfile.IncludedTaskfile)
    (tf d : Str) (hv : v.ge3 = true) (h1 : w.Replace inc.Taskfile = Except.ok tf)
    (h2 : w.Replace inc.Dir = Except.ok d) :
    (read.templateInclude w v inc).result =
      Res.ok { Taskfile := tf, Dir := d, AdvancedImport := inc.AdvancedImport } := by
  simp [read.templateInclude, hv, h1, h2]

theorem templateInclude_legacy (w : World) (v : Float64) (inc : taskfile.IncludedTaskfile)
    (hv : v.ge3 = false) : read.templateInclude w v inc = Run.pure inc := by
  simp [read.templateInclude, hv]

/-- The body of the include loop once the include is templated, found and
loaded: the calls made so far, then the checks, the rebasing and the merge. -/
theorem includeStep_loaded (w : World) (dir : Str) (v : Float64) (t : taskfile.Taskfile)
    (nspace : Str) (inc inc1 : taskfile.IncludedTaskfile) (isDir : Bool)
    (idoc : taskfile.Taskfile)
    (htpl : (read.templateInclude w v inc).result = Res.ok inc1)
    (hstat : w.Stat (includePath dir inc1.Taskfile) = StatResult.info isDir)
    (hread : (read.readTaskfile w (includeFile (includePath dir inc1.Taskfile) isDir)).result =
      Res.ok idoc) :
    read.includeStep w dir v t nspace inc =
      ⟨(read.templateInclude w v inc).events ++ Event.Stat (includePath dir inc1.Taskfile) ::
          Event.Open (includeFile (includePath dir inc1.Taskfile) isDir) ::
          (includeTail w v t nspace inc1 idoc).events,
        (includeTail w v t nspace inc1 idoc).result⟩ := by
  unfold read.includeStep
  rw [Run.bind_of_ok _ _ inc1 htpl]
  have hstat2 : w.Stat (if filepath.IsAbs inc1.Taskfile = true then inc1.Taskfile
      else filepath.Join [dir, inc1.Taskfile]) = StatResult.info isDir := hstat
  simp only [hstat2, Run.after]
  have hread2 : (read.readTaskfile w (if isDir = true then
      filepath.Join [if filepath.IsAbs inc1.Taskfile = true then inc1.Taskfile
        else filepath.Join [dir, inc1.Taskfile], "Taskfile.yml".toList]
      else if filepath.IsAbs inc1.Taskfile = true then inc1.Taskfile
        else filepath.Join [dir, inc1.Taskfile])).result = Res.ok idoc := hread
  rw [Run.bind_of_ok _ _ idoc hread2, readTaskfile_events]
  rfl

theorem includeTail_nested (w : World) (v : Float64) (t : taskfile.Taskfile) (nspace : Str)
    (inc1 : taskfile.IncludedTaskfile) (idoc : taskfile.Taskfile) (h : idoc.Includes ≠ []) :
    includeTail w v t nspace inc1 idoc = Run.fail Err.IncludedTaskfilesCantHaveIncludes := by
  have : idoc.Includes.length > 0 := List.length_pos.mpr h
  simp [includeTail, this]

theorem includeTail_dotenv (w : World) (v : Float64) (t : taskfile.Taskfile) (nspace : Str)
    (inc1 : taskfile.IncludedTaskfile) (idoc : taskfile.Taskfile) (hv : v.ge3 = true)
    (hinc : idoc.Includes = []) (h : idoc.Dotenv ≠ []) :
    includeTail w v t nspace inc1 idoc = Run.fail Err.IncludedTaskfilesCantHaveDotenvs := by
  have : idoc.Dotenv.length > 0 := List.length_pos.mpr h
  simp [includeTail, this, hinc, hv]

theorem resolve_head (w : World) (dir ep path : Str) (t : taskfile.Taskfile) (v : Float64)
    (hfind : (read.findPath w (absDir w dir) ep).result = Res.ok path)
    (hread : (read.readTaskfile w path).result = Res.ok t)
    (hver : w.ParsedVersion t = Except.ok v) :
    read.resolve w dir ep =
      ⟨(read.findPath w (absDir w dir) ep).events ++ Event.Open path ::
          Event.ParsedVersion t :: (afterVersion w (absDir w dir) v t).events,
        (afterVersion w (absDir w dir) v t).result⟩ := by
  have hfind2 : (read.findPath w (filepath.Abs w.Getwd dir).1 ep).result = Res.ok path := hfind
  unfold read.resolve
  simp only
  rw [Run.bind_of_ok _ _ path hfind2, Run.bind_of_ok _ _ t hread, readTaskfile_events]
  have hv : (Run.after (Event.ParsedVersion t) (Run.lift (w.ParsedVersion t))).result =
      Res.ok v := by rw [hver]; rfl
  rw [Run.bind_of_ok _ _ v hv, hver]
  simp only [Run.after, Run.lift, afterVersion, absDir, List.singleton_append, List.nil_append,
    List.cons_append]

theorem Taskfile_events (w : World) (dir ep : Str) :
    (read.Taskfile w dir ep).events = (read.resolve w dir ep).events := by
  unfold read.Taskfile
  cases h : (read.resolve w dir ep).result with
  | ok t => rw [Run.bind_of_ok _ _ t h]; simp [Run.pure]
  | err e => rw [Run.bind_of_err _ _ e h]
  | panic => rw [Run.bind_of_panic _ _ h]

theorem Taskfile_result_ok (w : World) (dir ep : Str) (t : taskfile.Taskfile)
    (h : (read.resolve w dir ep).result = Res.ok t) :
    (read.Taskfile w dir ep).result = Res.ok { t with Tasks := read.finalizeTasks t.Tasks } := by
  unfold read.Taskfile
  rw [Run.bind_of_ok _ _ t h]
  rfl

theorem Taskfile_result_err (w : World) (dir ep : Str) (e : Err)
    (h : (read.resolve w dir ep).result = Res.err e) :
    (read.Taskfile w dir ep).result = Res.err e := by
  unfold read.Taskfile
  rw [Run.bind_of_err _ _ e h]

theorem Taskfile_result_panic (w : World) (dir ep : Str)
    (h : (read.resolve w dir ep).result = Res.panic) :
    (read.Taskfile w dir ep).result = Res.panic := by
  unfold read.Taskfile
  rw [Run.bind_of_panic _ _ h]

/-- After a dotenv stage that succeeded, with one include whose step fails:
the run ends there with the error of the step. -/
theorem afterVersion_single_err (w : World) (dir : Str) (v : Float64)
    (t t1 : taskfile.Taskfile) (nspace : Str) (inc : taskfile.IncludedTaskfile) (e : Err)
    (hdot : (read.dotenvStage w dir v t).result = Res.ok t1)
    (hone : t.Includes = [(nspace, inc)])
    (hstep : (read.includeStep w dir v t1 nspace inc).result = Res.err e) :
    afterVersion w dir v t =
      ⟨(read.dotenvStage w dir v t).events ++ (read.includeStep w dir v t1 nspace inc).events,
        Res.err e⟩ := by
  have hinc : t1.Includes = [(nspace, inc)] := by
    rw [dotenvStage_fields w dir v t t1 hdot]; exact hone
  unfold afterVersion
  rw [Run.bind_of_ok _ _ t1 hdot, hinc]
  simp only [read.includesLoop]
  rw [Run.bind_of_err _ _ e hstep, Run.bind_of_err _ _ e rfl]

/-! ## Structural checks on included documents -/

/-- C5: for a root of version at least 3.0 with exactly one include whose path
templates, stats and loads, if the loaded document declares an include of its
own, `Taskfile` returns `ErrIncludedTaskfilesCantHaveIncludes` (and no
document), and no call of `taskfile.Merge` is made in the whole run. -/
theorem nested_include_rejected (w : World) (dir ep path : Str) (t t1 : taskfile.Taskfile)
    (v : Float64) (nspace : Str) (inc : taskfile.IncludedTaskfile) (tf d : Str)
    (isDir : Bool) (idoc : taskfile.Taskfile)
    (hfind : (read.findPath w (absDir w dir) ep).result = Res.ok path)
    (hread : (read.readTaskfile w path).result = Res.ok t)
    (hver : w.ParsedVersion t = Except.ok v)
    (hv : v.ge3 = true)
    (hdot : (read.dotenvStage w (absDir w dir) v t).result = Res.ok t1)
    (hone : t.Includes = [(nspace, inc)])
    (htf : w.Replace inc.Taskfile = Except.ok tf)
    (hd : w.Replace inc.Dir = Except.ok d)
    (hstat : w.Stat (includePath (absDir w dir) tf) = StatResult.info isDir)
    (hload : (read.readTaskfile w (includeFile (includePath (absDir w dir) tf) isDir)).result =
      Res.ok idoc)
    (hnest : idoc.Includes ≠ []) :
    (read.Taskfile w dir ep).result = Res.err Err.IncludedTaskfilesCantHaveIncludes ∧
      ∀ e ∈ (read.Taskfile w dir ep).events, e.isMerge = false := by
  have htpl := templateInclude_ge3 w v inc tf d hv htf hd
  have hstep := includeStep_loaded w (absDir w dir) v t1 nspace inc _ isDir idoc htpl hstat hload
  rw [includeTail_nested w v t1 nspace _ idoc hnest] at hstep
  have hafter := afterVersion_single_err w (absDir w dir) v t t1 nspace inc
    Err.IncludedTaskfilesCantHaveIncludes hdot hone (by rw [hstep]; rfl)
  have hres := resolve_head w dir ep path t v hfind hread hver
  rw [hafter] at hres
  refine ⟨Taskfile_result_err w dir ep _ (by rw [hres]), ?_⟩
  intro e he
  rw [Taskfile_events, hres, hstep] at he
  simp only [Run.fail, List.mem_append, List.mem_cons, List.not_mem_nil, or_false] at he
  rcases he with he | he | he | he | he | he | he
  · obtain ⟨p, rfl⟩ := findPath_events w _ ep e he; rfl
  · subst he; rfl
  · subst he; rfl
  · rcases dotenvStage_events w _ v t e he with ⟨p, rfl⟩ | ⟨p, rfl⟩ <;> rfl
  · obtain ⟨s, rfl⟩ := templateInclude_events w v inc e he; rfl
  · subst he; rfl
  · subst he; rfl

/-- Witness of C5: `/p/Taskfile.yml` includes `inc.yml`, which has an include of
its own. -/
theorem nested_include_rejected_witness :
    (read.Taskfile nestedWorld "/p".toList "Taskfile.yml".toList).result =
        Res.err Err.IncludedTaskfilesCantHaveIncludes ∧
      ∀ e ∈ (read.Taskfile nestedWorld "/p".toList "Taskfile.yml".toList).events,
        e.isMerge = false :=
  nested_include_rejected nestedWorld "/p".toList "Taskfile.yml".toList "/p/Taskfile.yml".toList
    (rootWithInclude ['3'] false) (rootWithInclude ['3'] false) (Float64.finite 3)
    "inc".toList { Taskfile := "inc.yml".toList, Dir := "sub".toList, AdvancedImport := false }
    "inc.yml".toList "sub".toList false
    { blankDoc ['3'] with
      Includes := [("deep".toList,
        { Taskfile := "deep.yml".toList, Dir := [], AdvancedImport := false })] }
    (by decide) (by decide) rfl (by decide) (by decide) rfl rfl rfl (by decide) (by decide)
    (by decide)

/-- C6: for a root of version at least 3.0 with exactly one include that
templates, stats and loads and has no include of its own, if the included
document declares a dotenv path, `Taskfile` returns
`ErrIncludedTaskfilesCantHaveDotenvs` (and no document). The included document
is arbitrary, its version included, and the only document whose version is
parsed in the run is the root. -/
theorem included_dotenv_rejected (w : World) (dir ep path : Str) (t t1 : taskfile.Taskfile)
    (v : Float64) (nspace : Str) (inc : taskfile.IncludedTaskfile) (tf d : Str)
    (isDir : Bool) (idoc : taskfile.Taskfile)
    (hfind : (read.findPath w (absDir w dir) ep).result = Res.ok path)
    (hread : (read.readTaskfile w path).result = Res.ok t)
    (hver : w.ParsedVersion t = Except.ok v)
    (hv : v.ge3 = true)
    (hdot : (read.dotenvStage w (absDir w dir) v t).result = Res.ok t1)
    (hone : t.Includes = [(nspace, inc)])
    (htf : w.Replace inc.Taskfile = Except.ok tf)
    (hd : w.Replace inc.Dir = Except.ok d)
    (hstat : w.Stat (includePath (absDir w dir) tf) = StatResult.info isDir)
    (hload : (read.readTaskfile w (includeFile (includePath (absDir w dir) tf) isDir)).result =
      Res.ok idoc)
    (hflat : idoc.Includes = [])
    (hdotenv : idoc.Dotenv ≠ []) :
    (read.Taskfile w dir ep).result = Res.err Err.IncludedTaskfilesCantHaveDotenvs ∧
      ∀ t2, Event.ParsedVersion t2 ∈ (read.Taskfile w dir ep).events → t2 = t := by
  have htpl := templateInclude_ge3 w v inc tf d hv htf hd
  have hstep := includeStep_loaded w (absDir w dir) v t1 nspace inc _ isDir idoc htpl hstat hload
  rw [includeTail_dotenv w v t1 nspace _ idoc hv hflat hdotenv] at hstep
  have hafter := afterVersion_single_err w (absDir w dir) v t t1 nspace inc
    Err.IncludedTaskfilesCantHaveDotenvs hdot hone (by rw [hstep]; rfl)
  have hres := resolve_head w dir ep path t v hfind hread hver
  rw [hafter] at hres
  refine ⟨Taskfile_result_err w dir ep _ (by rw [hres]), ?_⟩
  intro t2 he
  rw [Taskfile_events, hres, hstep] at he
  simp only [Run.fail, List.mem_append, List.mem_cons, List.not_mem_nil, or_false] at he
  rcases he with he | he | he | he | he | he | he
  · obtain ⟨p, hp⟩ := findPath_events w _ ep _ he; cases hp
  · cases he
  · cases he; rfl
  · rcases dotenvStage_events w _ v t _ he with ⟨p, hp⟩ | ⟨p, hp⟩ <;> cases hp
  · obtain ⟨s, hs⟩ := templateInclude_events w v inc _ he; cases hs
  · cases he
  · cases he

/-- Witness of C6: the root is of version 3, the included `/p/inc.yml` declares
version 2 and a dotenv file. -/
theorem included_dotenv_rejected_witness :
    (read.Taskfile dotenvIncludeWorld "/p".toList "Taskfile.yml".toList).result =
        Res.err Err.IncludedTaskfilesCantHaveDotenvs ∧
      ∀ t2, Event.ParsedVersion t2 ∈
          (read.Taskfile dotenvIncludeWorld "/p".toList "Taskfile.yml".toList).events →
        t2 = rootWithInclude ['3'] false :=
  included_dotenv_rejected dotenvIncludeWorld "/p".toList "Taskfile.yml".toList
    "/p/Taskfile.yml".toList
    (rootWithInclude ['3'] false) (rootWithInclude ['3'] false) (Float64.finite 3)
    "inc".toList { Taskfile := "inc.yml".toList, Dir := "sub".toList, AdvancedImport := false }
    "inc.yml".toList "sub".toList false
    { blankDoc ['2'] with Dotenv := [".env".toList] }
    (by decide) (by decide) rfl (by decide) (by decide) rfl rfl rfl (by decide) (by decide)
    rfl (by decide)

/-! ## Rebasing under an advanced import -/

theorem rebaseTasks_spec (base : Str) :
    ∀ (ts out : List (Str × Option taskfile.Task)), read.rebaseTasks base ts = some out →
      List.Forall₂ (RebasedEntry true base) ts out := by
  intro ts
  induction ts with
  | nil =>
    intro out h
    simp only [read.rebaseTasks] at h
    cases h
    exact List.Forall₂.nil
  | cons e rest ih =>
    intro out h
    obtain ⟨name, task⟩ := e
    cases task with
    | none => simp [read.rebaseTasks] at h
    | some task =>
      simp only [read.rebaseTasks] at h
      cases hr : read.rebaseTasks base rest with
      | none => rw [hr] at h; simp at h
      | some done =>
        rw [hr] at h
        simp only [Option.map_some'] at h
        cases h
        refine List.Forall₂.cons ⟨rfl, ?_⟩ (ih done hr)
        intro task2 h2
        cases h2
        by_cases habs : filepath.IsAbs task.Dir = true <;> simp [rebasedDir, habs]

theorem rebaseTasks_bodies (base : Str) :
    ∀ ts : List (Str × Option taskfile.Task), (∀ e ∈ ts, e.2 ≠ none) →
      ∃ out, read.rebaseTasks base ts = some out := by
  intro ts
  induction ts with
  | nil => intro _; exact ⟨[], rfl⟩
  | cons e rest ih =>
    intro h
    obtain ⟨name, task⟩ := e
    cases task with
    | none => exact absurd rfl (h (name, none) (List.mem_cons_self _ _))
    | some task =>
      obtain ⟨out, hout⟩ := ih (fun e he => h e (List.mem_cons_of_mem _ he))
      refine ⟨(name, some (if !filepath.IsAbs task.Dir
        then { task with Dir := filepath.Join [base, task.Dir] } else task)) :: out, ?_⟩
      simp [read.rebaseTasks, hout]

/-- A nil task stops the rebasing loop with a nil pointer dereference. -/
theorem rebaseTasks_nil (base : Str) :
    ∀ ts : List (Str × Option taskfile.Task), (∃ e ∈ ts, e.2 = none) →
      read.rebaseTasks base ts = none := by
  intro ts
  induction ts with
  | nil => rintro ⟨e, he, _⟩; simp at he
  | cons e rest ih =>
    rintro ⟨x, hx, hnone⟩
    obtain ⟨name, task⟩ := e
    cases task with
    | none => simp [read.rebaseTasks]
    | some task =>
      have hx2 : x ∈ rest := by
        rcases List.mem_cons.mp hx with h | h
        · subst h; simp at hnone
        · exact h
      simp [read.rebaseTasks, ih ⟨x, hx2, hnone⟩]

theorem forall₂_rebased_refl (base : Str) (ts : List (Str × Option taskfile.Task)) :
    List.Forall₂ (RebasedEntry false base) ts ts := by
  induction ts with
  | nil => exact List.Forall₂.nil
  | cons e rest ih =>
    refine List.Forall₂.cons ⟨rfl, ?_⟩ ih
    intro task h
    simp [rebasedDir, h]

/-- What the rebasing block hands on: the included document with its tasks
rebased entry by entry. -/
theorem rebaseIncluded_spec (inc1 : taskfile.IncludedTaskfile) (idoc src : taskfile.Taskfile)
    (h : (read.rebaseIncluded inc1 idoc).result = Res.ok src) :
    List.Forall₂ (RebasedEntry inc1.AdvancedImport inc1.Dir) idoc.Tasks src.Tasks := by
  unfold read.rebaseIncluded at h
  cases hadv : inc1.AdvancedImport with
  | false =>
    simp only [hadv, Run.pure] at h
    cases h
    exact forall₂_rebased_refl _ _
  | true =>
    simp only [hadv, if_true] at h
    cases hr : read.rebaseTasks inc1.Dir idoc.Tasks with
    | none => rw [hr] at h; cases h
    | some out =>
      rw [hr] at h
      simp only [Run.pure] at h
      cases h
      exact rebaseTasks_spec _ _ _ hr

theorem rebaseIncluded_events (inc1 : taskfile.IncludedTaskfile) (idoc : taskfile.Taskfile) :
    (read.rebaseIncluded inc1 idoc).events = [] := by
  unfold read.rebaseIncluded
  split
  · split <;> rfl
  · rfl

theorem rebaseIncluded_ok (inc1 : taskfile.IncludedTaskfile) (idoc : taskfile.Taskfile)
    (h : inc1.AdvancedImport = false ∨ ∀ e ∈ idoc.Tasks, e.2 ≠ none) :
    ∃ src, (read.rebaseIncluded inc1 idoc).result = Res.ok src := by
  unfold read.rebaseIncluded
  cases hadv : inc1.AdvancedImport with
  | false => exact ⟨idoc, rfl⟩
  | true =>
    rcases h with h | h
    · rw [hadv] at h; cases h
    · obtain ⟨out, hout⟩ := rebaseTasks_bodies inc1.Dir idoc.Tasks h
      refine ⟨{ idoc with Tasks := out }, ?_⟩
      simp [hout, Run.pure]

/-- The merge events of the tail of an include step: the one call with the
rebased document, when the checks pass and the rebasing ends. -/
theorem includeTail_merge_events (w : World) (v : Float64) (t : taskfile.Taskfile) (nspace : Str)
    (inc1 : taskfile.IncludedTaskfile) (idoc t1 src : taskfile.Taskfile) (nss : List Str)
    (h : Event.Merge t1 src nss ∈ (includeTail w v t nspace inc1 idoc).events) :
    (read.rebaseIncluded inc1 idoc).result = Res.ok src ∧ t1 = t ∧ nss = [nspace] := by
  unfold includeTail at h
  split at h
  · simp [Run.fail] at h
  · split at h
    · simp [Run.fail] at h
    · rcases Run.mem_bind_events _ _ _ h with h2 | ⟨d, hd, h2⟩
      · rw [rebaseIncluded_events] at h2; simp at h2
      · simp only [Run.after, Run.ofRes, List.mem_singleton] at h2
        cases h2
        exact ⟨hd, rfl, rfl⟩

theorem includeTail_passes (w : World) (v : Float64) (t : taskfile.Taskfile) (nspace : Str)
    (inc1 : taskfile.IncludedTaskfile) (idoc src : taskfile.Taskfile)
    (hflat : idoc.Includes = []) (hnodot : v.ge3 = false ∨ idoc.Dotenv = [])
    (hsrc : (read.rebaseIncluded inc1 idoc).result = Res.ok src) :
    includeTail w v t nspace inc1 idoc =
      ⟨[Event.Merge t src [nspace]], w.Merge t src [nspace]⟩ := by
  have hcheck : (v.ge3 && decide (idoc.Dotenv.length > 0)) = false := by
    rcases hnodot with h | h <;> simp [h]
  unfold includeTail
  simp only [hflat, List.length_nil, gt_iff_lt, lt_self_iff_false, if_false, hcheck]
  rw [Run.bind_of_ok _ _ src hsrc, rebaseIncluded_events]
  simp [Run.after, Run.ofRes]

/-- C7: in the body of the include loop, for an include that templates to
`inc1` (base directory `inc1.Dir`), stats and loads the document `idoc` which
passes the two structural checks: every document handed to `taskfile.Merge` has
the tasks of `idoc` entry by entry, each task with a body carrying
`filepath.Join(base, y)` for a relative directory `y` (the empty one included)
and `y` itself for an absolute one when the import is advanced, and its
directory unchanged when the import is not advanced; and the merge is called,
with such a document, whenever the import is not advanced or every task has a
body. -/
theorem advanced_import_rebases (w : World) (dir : Str) (v : Float64) (t : taskfile.Taskfile)
    (nspace : Str) (inc inc1 : taskfile.IncludedTaskfile) (isDir : Bool)
    (idoc : taskfile.Taskfile)
    (htpl : (read.templateInclude w v inc).result = Res.ok inc1)
    (hstat : w.Stat (includePath dir inc1.Taskfile) = StatResult.info isDir)
    (hload : (read.readTaskfile w (includeFile (includePath dir inc1.Taskfile) isDir)).result =
      Res.ok idoc)
    (hflat : idoc.Includes = [])
    (hnodot : v.ge3 = false ∨ idoc.Dotenv = []) :
    (∀ t1 src nss, Event.Merge t1 src nss ∈ (read.includeStep w dir v t nspace inc).events →
        List.Forall₂ (RebasedEntry inc1.AdvancedImport inc1.Dir) idoc.Tasks src.Tasks) ∧
      ((inc1.AdvancedImport = false ∨ ∀ e ∈ idoc.Tasks, e.2 ≠ none) →
        ∃ src, Event.Merge t src [nspace] ∈ (read.includeStep w dir v t nspace inc).events) := by
  have hstep := includeStep_loaded w dir v t nspace inc inc1 isDir idoc htpl hstat hload
  constructor
  · intro t1 src nss he
    rw [hstep] at he
    simp only [List.mem_append, List.mem_cons] at he
    rcases he with he | he | he | he
    · obtain ⟨s, hs⟩ := templateInclude_events w v inc _ he; cases hs
    · cases he
    · cases he
    · exact rebaseIncluded_spec inc1 idoc src
        (includeTail_merge_events w v t nspace inc1 idoc t1 src nss he).1
  · intro hb
    obtain ⟨src, hsrc⟩ := rebaseIncluded_ok inc1 idoc hb
    refine ⟨src, ?_⟩
    rw [hstep, includeTail_passes w v t nspace inc1 idoc src hflat hnodot hsrc]
    simp

/-- Witness of C7: an advanced import with base directory `sub` of tasks with
directories `rel`, `/abs` and the empty one hands `sub/rel`, `/abs` and `sub` to
the merge. -/
theorem advanced_import_rebases_witness :
    ((∀ t1 src nss, Event.Merge t1 src nss ∈
          (read.includeStep advancedWorld "/p".toList (Float64.finite 3)
            (rootWithInclude ['3'] true) "inc".toList
            { Taskfile := "inc.yml".toList, Dir := "sub".toList, AdvancedImport := true }).events →
        List.Forall₂ (RebasedEntry true "sub".toList) includedThree.Tasks src.Tasks) ∧
      ((true = false ∨ ∀ e ∈ includedThree.Tasks, e.2 ≠ none) →
        ∃ src, Event.Merge (rootWithInclude ['3'] true) src ["inc".toList] ∈
          (read.includeStep advancedWorld "/p".toList (Float64.finite 3)
            (rootWithInclude ['3'] true) "inc".toList
            { Taskfile := "inc.yml".toList, Dir := "sub".toList,
              AdvancedImport := true }).events)) ∧
    Event.Merge (rootWithInclude ['3'] true) includedThreeRebased ["inc".toList] ∈
      (read.includeStep advancedWorld "/p".toList (Float64.finite 3)
        (rootWithInclude ['3'] true) "inc".toList
        { Taskfile := "inc.yml".toList, Dir := "sub".toList, AdvancedImport := true }).events :=
  ⟨advanced_import_rebases advancedWorld "/p".toList (Float64.finite 3)
      (rootWithInclude ['3'] true) "inc".toList
      { Taskfile := "inc.yml".toList, Dir := "sub".toList, AdvancedImport := true }
      { Taskfile := "inc.yml".toList, Dir := "sub".toList, AdvancedImport := true }
      false includedThree (by decide) (by decide) (by decide) rfl (Or.inr rfl),
    by decide⟩

/-- Under an advanced import, a task declared with an empty body in the
included document stops the include step with a nil pointer dereference, and
nothing is handed to the merge. -/
theorem includeStep_nil_task_panics (w : World) (dir : Str) (v : Float64)
    (t : taskfile.Taskfile) (nspace : Str) (inc inc1 : taskfile.IncludedTaskfile)
    (isDir : Bool) (idoc : taskfile.Taskfile)
    (htpl : (read.templateInclude w v inc).result = Res.ok inc1)
    (hstat : w.Stat (includePath dir inc1.Taskfile) = StatResult.info isDir)
    (hload : (read.readTaskfile w (includeFile (includePath dir inc1.Taskfile) isDir)).result =
      Res.ok idoc)
    (hflat : idoc.Includes = [])
    (hnodot : v.ge3 = false ∨ idoc.Dotenv = [])
    (hadv : inc1.AdvancedImport = true)
    (hnil : ∃ e ∈ idoc.Tasks, e.2 = none) :
    (read.includeStep w dir v t nspace inc).result = Res.panic := by
  have hstep := includeStep_loaded w dir v t nspace inc inc1 isDir idoc htpl hstat hload
  have hcheck : (v.ge3 && decide (idoc.Dotenv.length > 0)) = false := by
    rcases hnodot with h | h <;> simp [h]
  have hreb : read.rebaseIncluded inc1 idoc = ⟨[], Res.panic⟩ := by
    simp [read.rebaseIncluded, hadv, rebaseTasks_nil inc1.Dir idoc.Tasks hnil]
  rw [hstep]
  simp only [includeTail, hflat, List.length_nil, gt_iff_lt, lt_self_iff_false, if_false, hcheck,
    hreb]
  rfl

/-- C10, evaluated: a root of version 3 imports, in the advanced form, a
document with a task declared with an empty body. `Taskfile` ends in a nil
pointer dereference in the rebasing loop, and `taskfile.Merge` is never
reached. -/
theorem advanced_import_nil_task_panics :
    (read.Taskfile nilTaskWorld "/p".toList "Taskfile.yml".toList).result = Res.panic ∧
      ∀ e ∈ (read.Taskfile nilTaskWorld "/p".toList "Taskfile.yml".toList).events,
        e.isMerge = false := by
  decide

/-! ## The final loop over the tasks -/

theorem finalizeTasks_keys (ts : List (Str × Option taskfile.Task)) :
    (read.finalizeTasks ts).map Prod.fst = ts.map Prod.fst := by
  induction ts with
  | nil => rfl
  | cons e rest ih =>
    obtain ⟨name, task⟩ := e
    simp [read.finalizeTasks, ih]

theorem finalizeTasks_named (ts : List (Str × Option taskfile.Task)) :
    ∀ e ∈ read.finalizeTasks ts, ∃ task, e.2 = some task ∧ task.Task = e.1 := by
  induction ts with
  | nil => intro e he; simp [read.finalizeTasks] at he
  | cons x rest ih =>
    obtain ⟨name, task⟩ := x
    intro e he
    simp only [read.finalizeTasks, List.mem_cons] at he
    rcases he with he | he
    · subst he; exact ⟨_, rfl, rfl⟩
    · exact ih e he

theorem finalizeTasks_entries (ts : List (Str × Option taskfile.Task)) :
    List.Forall₂ (fun a b => b.1 = a.1 ∧
        (a.2 = none → b.2 = some { read.emptyTask with Task := a.1 }) ∧
        ∀ task, a.2 = some task → b.2 = some { task with Task := a.1 })
      ts (read.finalizeTasks ts) := by
  induction ts with
  | nil => exact List.Forall₂.nil
  | cons x rest ih =>
    obtain ⟨name, task⟩ := x
    refine List.Forall₂.cons ⟨rfl, ?_, ?_⟩ ih
    · intro h; simp only at h; subst h; rfl
    · intro task2 h; simp only at h; subst h; rfl

/-- C8: whenever `Taskfile` returns a document, every entry of its task mapping
holds a task (never nil) whose name field is the key; the document is the
merged one with the same keys in the same order, where an entry that was nil is
a fresh empty task carrying the key and every other entry is the task it was
with the key as its name. -/
theorem Taskfile_finalizes (w : World) (dir ep : Str) (doc : taskfile.Taskfile)
    (h : (read.Taskfile w dir ep).result = Res.ok doc) :
    (∀ e ∈ doc.Tasks, ∃ task, e.2 = some task ∧ task.Task = e.1) ∧
      ∃ t, (read.resolve w dir ep).result = Res.ok t ∧
        doc.Tasks.map Prod.fst = t.Tasks.map Prod.fst ∧
        List.Forall₂ (fun a b => b.1 = a.1 ∧
            (a.2 = none → b.2 = some { read.emptyTask with Task := a.1 }) ∧
            ∀ task, a.2 = some task → b.2 = some { task with Task := a.1 })
          t.Tasks doc.Tasks := by
  unfold read.Taskfile at h
  obtain ⟨t, ht, hdoc⟩ := Run.bind_result_ok _ _ doc h
  simp only [Run.pure] at hdoc
  cases hdoc
  exact ⟨finalizeTasks_named t.Tasks, t, ht, finalizeTasks_keys t.Tasks,
    finalizeTasks_entries t.Tasks⟩

/-- Witness of C8: in `nilRootWorld` the root declares `build` and `empty`, the
second with an empty body; the returned document names both. -/
theorem Taskfile_finalizes_witness :
    (∀ e ∈ nilRootResult.Tasks, ∃ task, e.2 = some task ∧ task.Task = e.1) ∧
      ∃ t, (read.resolve nilRootWorld "/p".toList "Taskfile.yml".toList).result = Res.ok t ∧
        nilRootResult.Tasks.map Prod.fst = t.Tasks.map Prod.fst ∧
        List.Forall₂ (fun a b => b.1 = a.1 ∧
            (a.2 = none → b.2 = some { read.emptyTask with Task := a.1 }) ∧
            ∀ task, a.2 = some task → b.2 = some { task with Task := a.1 })
          t.Tasks nilRootResult.Tasks :=
  Taskfile_finalizes nilRootWorld "/p".toList "Taskfile.yml".toList nilRootResult
    (by decide)

/-! ## Legacy documents (version below 3.0) -/

theorem lt3_not_ge3 (v : Float64) (h : v.lt3 = true) : v.ge3 = false := by
  cases v with
  | finite q =>
    simp only [Float64.lt3, decide_eq_true_eq] at h
    simp only [Float64.ge3, decide_eq_false_iff_not, not_le]
    exact h
  | posInf => simp [Float64.lt3] at h
  | negInf => rfl
  | nan => rfl

theorem dotenvStage_legacy (w : World) (dir : Str) (v : Float64) (t : taskfile.Taskfile)
    (h : v.ge3 = false) : read.dotenvStage w dir v t = Run.pure t := by
  simp [read.dotenvStage, h]

/-- The calls of one include step: the templater (for a version of at least 3.0
only), `os.Stat`, `os.Open` and the merge under the namespace. -/
theorem includeStep_events (w : World) (dir : Str) (v : Float64) (t : taskfile.Taskfile)
    (nspace : Str) (inc : taskfile.IncludedTaskfile) :
    ∀ e ∈ (read.includeStep w dir v t nspace inc).events,
      (v.ge3 = true ∧ ∃ s, e = Event.Replace s) ∨ (∃ p, e = Event.Stat p) ∨
        (∃ p, e = Event.Open p) ∨ ∃ t1 src, e = Event.Merge t1 src [nspace] := by
  intro e he
  unfold read.includeStep at he
  rcases Run.mem_bind_events _ _ e he with h | ⟨inc1, _, h⟩
  · left
    refine ⟨?_, templateInclude_events w v inc e h⟩
    cases hv : v.ge3 with
    | true => rfl
    | false => rw [templateInclude_legacy w v inc hv] at h; simp [Run.pure] at h
  · right
    simp only [Run.after, List.mem_cons] at h
    rcases h with h | h
    · exact Or.inl ⟨_, h⟩
    · right
      split at h
      · simp [Run.fail] at h
      · rcases Run.mem_bind_events _ _ e h with h2 | ⟨idoc, _, h2⟩
        · rw [readTaskfile_events] at h2
          exact Or.inl ⟨_, List.mem_singleton.mp h2⟩
        · right
          split at h2
          · simp [Run.fail] at h2
          · split at h2
            · simp [Run.fail] at h2
            · rcases Run.mem_bind_events _ _ e h2 with h3 | ⟨src, _, h3⟩
              · rw [rebaseIncluded_events] at h3; simp at h3
              · simp only [Run.after, Run.ofRes, List.mem_singleton] at h3
                exact ⟨_, _, h3⟩

theorem includesLoop_events (w : World) (dir : Str) (v : Float64)
    (incs : List (Str × taskfile.IncludedTaskfile)) :
    ∀ t : taskfile.Taskfile, ∀ e ∈ (read.includesLoop w dir v incs t).events,
      (v.ge3 = true ∧ ∃ s, e = Event.Replace s) ∨ (∃ p, e = Event.Stat p) ∨
        (∃ p, e = Event.Open p) ∨
        ∃ t1 src nspace inc, (nspace, inc) ∈ incs ∧ e = Event.Merge t1 src [nspace] := by
  induction incs with
  | nil => intro t e he; simp [read.includesLoop, Run.pure] at he
  | cons x rest ih =>
    obtain ⟨nspace, inc⟩ := x
    intro t e he
    simp only [read.includesLoop] at he
    rcases Run.mem_bind_events _ _ e he with h | ⟨t1, _, h⟩
    · rcases includeStep_events w dir v t nspace inc e h with h | h | h | ⟨t1, src, h⟩
      · exact Or.inl h
      · exact Or.inr (Or.inl h)
      · exact Or.inr (Or.inr (Or.inl h))
      · exact Or.inr (Or.inr (Or.inr ⟨t1, src, nspace, inc, List.mem_cons_self _ _, h⟩))
    · rcases ih t1 e h with h | h | h | ⟨t2, src, n2, i2, hmem, h⟩
      · exact Or.inl h
      · exact Or.inr (Or.inl h)
      · exact Or.inr (Or.inr (Or.inl h))
      · exact Or.inr (Or.inr (Or.inr ⟨t2, src, n2, i2, List.mem_cons_of_mem _ hmem, h⟩))

/-- The calls of the platform-variant block, in order: the probe, then, when
the probe succeeds, the load and, when the load succeeds, the merge with no
namespace. -/
theorem legacyStage_events (w : World) (dir : Str) (v : Float64) (t : taskfile.Taskfile)
    (hlt : v.lt3 = true) :
    (read.legacyStage w dir v t).events =
      Event.Stat (filepath.Join [dir, read.osTaskfileName w.GOOS]) ::
        (if (w.Stat (filepath.Join [dir, read.osTaskfileName w.GOOS])).isOk then
          Event.Open (filepath.Join [dir, read.osTaskfileName w.GOOS]) ::
            (match (read.readTaskfile w (filepath.Join [dir, read.osTaskfileName w.GOOS])).result with
             | Res.ok osTaskfile => [Event.Merge t osTaskfile []]
             | _ => [])
         else []) := by
  simp only [read.legacyStage, hlt, if_true, Run.after]
  by_cases hs : (w.Stat (filepath.Join [dir, read.osTaskfileName w.GOOS])).isOk = true
  · simp only [hs, if_true]
    cases hr : (read.readTaskfile w (filepath.Join [dir, read.osTaskfileName w.GOOS])).result with
    | ok os =>
      rw [Run.bind_of_ok _ _ os hr, readTaskfile_events]
      simp [Run.after, Run.ofRes]
    | err e => rw [Run.bind_of_err _ _ e hr, readTaskfile_events]
    | panic => rw [Run.bind_of_panic _ _ hr, readTaskfile_events]
  · simp [hs, Run.pure]

theorem legacyStage_absent (w : World) (dir : Str) (v : Float64) (t : taskfile.Taskfile)
    (hlt : v.lt3 = true)
    (hs : (w.Stat (filepath.Join [dir, read.osTaskfileName w.GOOS])).isOk = false) :
    (read.legacyStage w dir v t).result = Res.ok t := by
  simp [read.legacyStage, hlt, hs, Run.after, Run.pure]

theorem afterVersion_legacy (w : World) (dir : Str) (v : Float64) (t : taskfile.Taskfile)
    (hlt : v.lt3 = true) :
    afterVersion w dir v t =
      Run.bind (read.includesLoop w dir v t.Includes t) (read.legacyStage w dir v) := by
  unfold afterVersion
  rw [dotenvStage_legacy w dir v t (lt3_not_ge3 v hlt)]
  simp [Run.bind, Run.pure]

theorem legacyStage_events_kinds (w : World) (dir : Str) (v : Float64) (t : taskfile.Taskfile) :
    ∀ e ∈ (read.legacyStage w dir v t).events,
      (∃ p, e = Event.Stat p) ∨ (∃ p, e = Event.Open p) ∨ ∃ src, e = Event.Merge t src [] := by
  intro e he
  cases hlt : v.lt3 with
  | false => simp [read.legacyStage, hlt, Run.pure] at he
  | true =>
    rw [legacyStage_events w dir v t hlt] at he
    simp only [List.mem_cons] at he
    rcases he with he | he
    · exact Or.inl ⟨_, he⟩
    · split at he
      · simp only [List.mem_cons] at he
        rcases he with he | he
        · exact Or.inr (Or.inl ⟨_, he⟩)
        · split at he
          · exact Or.inr (Or.inr ⟨_, List.mem_singleton.mp he⟩)
          · simp at he
      · simp at he

theorem Run.mem_bind_of_left {α β : Type} (x : Run α) (f : α → Run β) (ev : Event)
    (h : ev ∈ x.events) : ev ∈ (Run.bind x f).events := by
  cases hx : x.result with
  | ok a => rw [Run.bind_of_ok x f a hx]; exact List.mem_append_left _ h
  | err e => rw [Run.bind_of_err x f e hx]; exact h
  | panic => rw [Run.bind_of_panic x f hx]; exact h

theorem Run.mem_bind_of_right {α β : Type} (x : Run α) (f : α → Run β) (a : α) (ev : Event)
    (hx : x.result = Res.ok a) (h : ev ∈ (f a).events) : ev ∈ (Run.bind x f).events := by
  rw [Run.bind_of_ok x f a hx]; exact List.mem_append_right _ h

theorem Run.bind_result_err {α β : Type} (x : Run α) (f : α → Run β) (e : Err)
    (h : x.result = Res.err e) : (Run.bind x f).result = Res.err e := by
  rw [Run.bind_of_err x f e h]

/-- An include reached by the loop, the earlier ones having merged into `t1`:
its step is part of the loop, calls and error. -/
theorem includesLoop_reach (w : World) (dir : Str) (v : Float64) (nspace : Str)
    (inc : taskfile.IncludedTaskfile) (rest : List (Str × taskfile.IncludedTaskfile))
    (pre : List (Str × taskfile.IncludedTaskfile)) :
    ∀ t t1 : taskfile.Taskfile, (read.includesLoop w dir v pre t).result = Res.ok t1 →
      (∀ e ∈ (read.includeStep w dir v t1 nspace inc).events,
        e ∈ (read.includesLoop w dir v (pre ++ (nspace, inc) :: rest) t).events) ∧
      ∀ err, (read.includeStep w dir v t1 nspace inc).result = Res.err err →
        (read.includesLoop w dir v (pre ++ (nspace, inc) :: rest) t).result = Res.err err := by
  induction pre with
  | nil =>
    intro t t1 h
    simp only [read.includesLoop, Run.pure] at h
    cases h
    simp only [List.nil_append, read.includesLoop]
    exact ⟨fun e he => Run.mem_bind_of_left _ _ e he, fun err he => Run.bind_result_err _ _ err he⟩
  | cons x pre ih =>
    obtain ⟨n0, i0⟩ := x
    intro t t1 h
    simp only [read.includesLoop] at h
    obtain ⟨t0, h0, hpre⟩ := Run.bind_result_ok _ _ t1 h
    obtain ⟨ihe, ihr⟩ := ih t0 t1 hpre
    simp only [List.cons_append, read.includesLoop]
    refine ⟨fun e he => Run.mem_bind_of_right _ _ t0 e h0 (ihe e he), fun err he => ?_⟩
    rw [Run.bind_of_ok _ _ t0 h0]
    exact ihr err he

/-- The step of an include under a legacy root: no templating, no dotenv check;
the include is stat'ed, loaded, checked for nested includes, rebased and
merged. -/
theorem includeStep_legacy (w : World) (dir : Str) (v : Float64) (t : taskfile.Taskfile)
    (nspace : Str) (inc : taskfile.IncludedTaskfile) (hge : v.ge3 = false) :
    LegacyIncludeProcessed w dir (read.includeStep w dir v t nspace inc) t nspace inc := by
  have htpl : (read.templateInclude w v inc).result = Res.ok inc := by
    rw [templateInclude_legacy w v inc hge]; rfl
  have hunf : read.includeStep w dir v t nspace inc =
      Run.after (Event.Stat (includePath dir inc.Taskfile))
        (match w.Stat (includePath dir inc.Taskfile) with
         | StatResult.error e _ => Run.fail e
         | StatResult.info isDir =>
           Run.bind (read.readTaskfile w (includeFile (includePath dir inc.Taskfile) isDir))
             fun idoc => includeTail w v t nspace inc idoc) := by
    unfold read.includeStep
    rw [Run.bind_of_ok _ _ inc htpl, templateInclude_legacy w v inc hge]
    rfl
  refine ⟨?_, ?_, ?_⟩
  · rw [hunf]; exact List.mem_cons_self _ _
  · intro e b hs
    rw [hunf, hs]; rfl
  · intro isDir idoc hs hload
    have hstep := includeStep_loaded w dir v t nspace inc inc isDir idoc htpl hs hload
    refine ⟨?_, ?_, ?_⟩
    · rw [hstep]; simp
    · intro hnest
      rw [hstep, includeTail_nested w v t nspace inc idoc hnest]; rfl
    · intro hflat hb
      obtain ⟨src, hsrc⟩ := rebaseIncluded_ok inc idoc hb
      refine ⟨src, rebaseIncluded_spec inc idoc src hsrc, ?_⟩
      rw [hstep, includeTail_passes w v t nspace inc idoc src hflat (Or.inl hge) hsrc]
      simp

/-- C3, as the code has it: for a root of version below 3.0, located, loaded
and with its version parsed, (1) the run goes from the version straight to the
include loop on the document as loaded (dotenv list ignored, environment
untouched) and then to the platform-variant block; (2) no call of
`godotenv.Read` and none of the templater is made; (3) every merge of the run
is either the merge of a declared include under its namespace or the merge with
no namespace; (4) every declared include that the loop reaches, the earlier
ones having merged into `t1`, is processed: stat'ed at its path as declared,
loaded, refused with the fixed error when it has an include of its own, and
otherwise, whatever dotenv list it declares, rebased if advanced and handed to
the merge with `t1` under its namespace; (5) when the include loop ends with
`t2`, the platform-variant file is probed and, if it exists and loads, merged
into `t2` with no namespace. -/
theorem legacy_skips_dotenv_only (w : World) (dir ep path : Str) (t : taskfile.Taskfile)
    (v : Float64)
    (hfind : (read.findPath w (absDir w dir) ep).result = Res.ok path)
    (hread : (read.readTaskfile w path).result = Res.ok t)
    (hver : w.ParsedVersion t = Except.ok v)
    (hlt : v.lt3 = true) :
    read.resolve w dir ep =
        ⟨(read.findPath w (absDir w dir) ep).events ++ Event.Open path ::
            Event.ParsedVersion t ::
            (Run.bind (read.includesLoop w (absDir w dir) v t.Includes t)
              (read.legacyStage w (absDir w dir) v)).events,
          (Run.bind (read.includesLoop w (absDir w dir) v t.Includes t)
            (read.legacyStage w (absDir w dir) v)).result⟩ ∧
      (∀ e ∈ (read.Taskfile w dir ep).events, e.isDotenvOrTemplate = false) ∧
      (∀ t1 src nss, Event.Merge t1 src nss ∈ (read.Taskfile w dir ep).events →
        nss = [] ∨ ∃ nspace inc, (nspace, inc) ∈ t.Includes ∧ nss = [nspace]) ∧
      (∀ pre nspace inc rest t1, t.Includes = pre ++ (nspace, inc) :: rest →
        (read.includesLoop w (absDir w dir) v pre t).result = Res.ok t1 →
        LegacyIncludeProcessed w (absDir w dir) (read.Taskfile w dir ep) t1 nspace inc) ∧
      ∀ t2, (read.includesLoop w (absDir w dir) v t.Includes t).result = Res.ok t2 →
        Event.Stat (variantPath w dir) ∈ (read.Taskfile w dir ep).events ∧
        ∀ osTaskfile, (w.Stat (variantPath w dir)).isOk = true →
          (read.readTaskfile w (variantPath w dir)).result = Res.ok osTaskfile →
          Event.Merge t2 osTaskfile [] ∈ (read.Taskfile w dir ep).events := by
  have hge := lt3_not_ge3 v hlt
  have hres := resolve_head w dir ep path t v hfind hread hver
  rw [afterVersion_legacy w _ v t hlt] at hres
  have hmem : ∀ e ∈ (read.Taskfile w dir ep).events,
      (∃ p, e = Event.Stat p) ∨ (∃ p, e = Event.Open p) ∨ (∃ d, e = Event.ParsedVersion d) ∨
        (∃ t1 src, e = Event.Merge t1 src []) ∨
        ∃ t1 src nspace inc, (nspace, inc) ∈ t.Includes ∧ e = Event.Merge t1 src [nspace] := by
    intro e he
    rw [Taskfile_events, hres] at he
    simp only [List.mem_append, List.mem_cons] at he
    rcases he with he | he | he | he
    · exact Or.inl (findPath_events w _ ep e he)
    · exact Or.inr (Or.inl ⟨_, he⟩)
    · exact Or.inr (Or.inr (Or.inl ⟨_, he⟩))
    · rcases Run.mem_bind_events _ _ e he with h | ⟨t2, _, h⟩
      · rcases includesLoop_events w _ v t.Includes t e h with ⟨h1, _⟩ | h | h | h
        · rw [hge] at h1; cases h1
        · exact Or.inl h
        · exact Or.inr (Or.inl h)
        · exact Or.inr (Or.inr (Or.inr (Or.inr h)))
      · rcases legacyStage_events_kinds w _ v t2 e h with h | h | ⟨src, h⟩
        · exact Or.inl h
        · exact Or.inr (Or.inl h)
        · exact Or.inr (Or.inr (Or.inr (Or.inl ⟨t2, src, h⟩)))
  have hloop : ∀ e ∈ (read.includesLoop w (absDir w dir) v t.Includes t).events,
      e ∈ (read.Taskfile w dir ep).events := by
    intro e he
    rw [Taskfile_events, hres]
    simp only [List.mem_append, List.mem_cons]
    exact Or.inr (Or.inr (Or.inr (Run.mem_bind_of_left _ _ e he)))
  have hloopErr : ∀ err, (read.includesLoop w (absDir w dir) v t.Includes t).result =
      Res.err err → (read.Taskfile w dir ep).result = Res.err err := by
    intro err he
    apply Taskfile_result_err
    rw [hres]
    exact Run.bind_result_err _ _ err he
  refine ⟨hres, ?_, ?_, ?_, ?_⟩
  · intro e he
    rcases hmem e he with ⟨p, rfl⟩ | ⟨p, rfl⟩ | ⟨d, rfl⟩ | ⟨t1, src, rfl⟩ |
      ⟨t1, src, n, i, _, rfl⟩ <;> rfl
  · intro t1 src nss he
    rcases hmem _ he with ⟨p, h⟩ | ⟨p, h⟩ | ⟨d, h⟩ | ⟨t2, s2, h⟩ | ⟨t2, s2, n, i, hm, h⟩
    · cases h
    · cases h
    · cases h
    · cases h; exact Or.inl rfl
    · cases h; exact Or.inr ⟨n, i, hm, rfl⟩
  · intro pre nspace inc rest t1 hsplit hpre
    obtain ⟨hev, herr⟩ := includesLoop_reach w (absDir w dir) v nspace inc rest pre t t1 hpre
    rw [← hsplit] at hev herr
    obtain ⟨hstat, hfail, hok⟩ := includeStep_legacy w (absDir w dir) v t1 nspace inc hge
    refine ⟨hloop _ (hev _ hstat), fun e b hs => hloopErr e (herr e (hfail e b hs)), ?_⟩
    intro isDir idoc hs hload
    obtain ⟨hopen, hnest, hmerge⟩ := hok isDir idoc hs hload
    refine ⟨hloop _ (hev _ hopen), fun hn => hloopErr _ (herr _ (hnest hn)), ?_⟩
    intro hflat hb
    obtain ⟨src, hsrc, hm⟩ := hmerge hflat hb
    exact ⟨src, hsrc, hloop _ (hev _ hm)⟩
  · intro t2 hinc
    have hleg : ∀ e ∈ (read.legacyStage w (absDir w dir) v t2).events,
        e ∈ (read.Taskfile w dir ep).events := by
      intro e he
      rw [Taskfile_events, hres]
      simp only [List.mem_append, List.mem_cons]
      exact Or.inr (Or.inr (Or.inr (Run.mem_bind_of_right _ _ t2 e hinc he)))
    have hevs := legacyStage_events w (absDir w dir) v t2 hlt
    have hpath : filepath.Join [absDir w dir, read.osTaskfileName w.GOOS] = variantPath w dir :=
      rfl
    rw [hpath] at hevs
    refine ⟨hleg _ (by rw [hevs]; exact List.mem_cons_self _ _), ?_⟩
    intro osTaskfile hs hload
    apply hleg
    rw [hevs, hs, hload]
    simp

/-- Witness of the amended C3 in `legacyDotenvIncludeWorld`: a root of version 2
with the include `inc` and a dotenv list; the included document declares a
dotenv list too. Nothing is read by godotenv or templated, the include is
stat'ed, opened and handed to the merge under `inc`, and the platform-variant
file is probed. -/
theorem legacy_skips_dotenv_only_witness :
    (∀ e ∈ (read.Taskfile legacyDotenvIncludeWorld "/p".toList "Taskfile.yml".toList).events,
        e.isDotenvOrTemplate = false) ∧
      LegacyIncludeProcessed legacyDotenvIncludeWorld
        (absDir legacyDotenvIncludeWorld "/p".toList)
        (read.Taskfile legacyDotenvIncludeWorld "/p".toList "Taskfile.yml".toList)
        legacyRoot "inc".toList
        { Taskfile := "inc.yml".toList, Dir := "sub".toList, AdvancedImport := false } ∧
      Event.Merge legacyRoot legacyIncludedDotenv ["inc".toList] ∈
        (read.Taskfile legacyDotenvIncludeWorld "/p".toList "Taskfile.yml".toList).events ∧
      Event.Stat "/p/Taskfile_linux.yml".toList ∈
        (read.Taskfile legacyDotenvIncludeWorld "/p".toList "Taskfile.yml".toList).events :=
  have h := legacy_skips_dotenv_only legacyDotenvIncludeWorld "/p".toList "Taskfile.yml".toList
    "/p/Taskfile.yml".toList legacyRoot (Float64.finite 2)
    (by decide) (by decide) rfl (by decide)
  ⟨h.2.1, h.2.2.2.1 [] "inc".toList _ [] legacyRoot rfl rfl, by decide,
    (h.2.2.2.2
      { legacyRoot with
        Tasks := legacyRoot.Tasks ++
          [("inc:a".toList, some { Task := [], Dir := [], Cmds := [] })] }
      (by decide)).1⟩

/-- Counterexample to C3: for the root of version 2 in `legacyWorld` the
included file is stat'ed, opened and merged under its namespace, and the tasks
of the result differ from those obtained with the includes and the dotenv list
of the root emptied. -/
theorem legacy_include_is_processed :
    Event.Stat "/p/inc.yml".toList ∈
        (read.Taskfile legacyWorld "/p".toList "Taskfile.yml".toList).events ∧
      Event.Open "/p/inc.yml".toList ∈
        (read.Taskfile legacyWorld "/p".toList "Taskfile.yml".toList).events ∧
      Event.Merge legacyRoot legacyIncluded ["inc".toList] ∈
        (read.Taskfile legacyWorld "/p".toList "Taskfile.yml".toList).events ∧
      (read.Taskfile legacyWorld "/p".toList "Taskfile.yml".toList).result =
        Res.ok legacyResult ∧
      (read.Taskfile legacyWorldEmptied "/p".toList "Taskfile.yml".toList).result =
        Res.ok legacyEmptiedResult ∧
      legacyResult.Tasks ≠ legacyEmptiedResult.Tasks := by
  decide

/-- C9, as the code has it: for a root of version below 3.0, located by the
upward search, loaded, and with its includes processed without error into
`t2`, the calls of the run end with the probe of `Taskfile_<GOOS>.yml` joined
to the absolute starting directory, followed, when that probe succeeds, by the
load of the same path and, when the load succeeds, by its merge into `t2` with
no namespace. -/
theorem variant_in_start_dir (w : World) (dir ep path : Str) (t t2 : taskfile.Taskfile)
    (v : Float64)
    (hfind : (read.findPath w (absDir w dir) ep).result = Res.ok path)
    (hread : (read.readTaskfile w path).result = Res.ok t)
    (hver : w.ParsedVersion t = Except.ok v)
    (hlt : v.lt3 = true)
    (hinc : (read.includesLoop w (absDir w dir) v t.Includes t).result = Res.ok t2) :
    (read.Taskfile w dir ep).events =
      (read.findPath w (absDir w dir) ep).events ++ Event.Open path :: Event.ParsedVersion t ::
        ((read.includesLoop w (absDir w dir) v t.Includes t).events ++
          Event.Stat (variantPath w dir) ::
            (if (w.Stat (variantPath w dir)).isOk then
              Event.Open (variantPath w dir) ::
                (match (read.readTaskfile w (variantPath w dir)).result with
                 | Res.ok osTaskfile => [Event.Merge t2 osTaskfile []]
                 | _ => [])
             else [])) := by
  have hres := resolve_head w dir ep path t v hfind hread hver
  rw [afterVersion_legacy w _ v t hlt, Run.bind_of_ok _ _ t2 hinc,
    legacyStage_events w _ v t2 hlt] at hres
  rw [Taskfile_events, hres]
  rfl

/-- Witness of the amended C9: from `/p`, where both the root and its sibling
`Taskfile_linux.yml` are, the sibling is probed, loaded and merged with no
namespace. -/
theorem variant_in_start_dir_witness :
    (read.Taskfile ancestorWorld "/p".toList "Taskfile.yml".toList).events =
      [Event.Stat "/p/Taskfile.yml".toList, Event.Open "/p/Taskfile.yml".toList,
        Event.ParsedVersion (blankDoc ['2']), Event.Stat "/p/Taskfile_linux.yml".toList,
        Event.Open "/p/Taskfile_linux.yml".toList, Event.Merge (blankDoc ['2']) variantDoc []] :=
  (variant_in_start_dir ancestorWorld "/p".toList "Taskfile.yml".toList
    "/p/Taskfile.yml".toList (blankDoc ['2']) (blankDoc ['2']) (Float64.finite 2)
    (by decide) (by decide) rfl (by decide) (by decide)).trans (by decide)

/-- Counterexample to C9: from `/p/q` the search locates `/p/Taskfile.yml`, a
root of version 2 whose sibling `/p/Taskfile_linux.yml` exists; the run probes
`/p/q/Taskfile_linux.yml`, never probes nor opens the sibling, and merges
nothing. -/
theorem variant_not_sibling_of_located_root :
    (read.findPath ancestorWorld (absDir ancestorWorld "/p/q".toList)
        "Taskfile.yml".toList).result = Res.ok "/p/Taskfile.yml".toList ∧
      (ancestorWorld.Stat "/p/Taskfile_linux.yml".toList).isOk = true ∧
      Event.Stat "/p/q/Taskfile_linux.yml".toList ∈
        (read.Taskfile ancestorWorld "/p/q".toList "Taskfile.yml".toList).events ∧
      Event.Stat "/p/Taskfile_linux.yml".toList ∉
        (read.Taskfile ancestorWorld "/p/q".toList "Taskfile.yml".toList).events ∧
      Event.Open "/p/Taskfile_linux.yml".toList ∉
        (read.Taskfile ancestorWorld "/p/q".toList "Taskfile.yml".toList).events ∧
      (∀ e ∈ (read.Taskfile ancestorWorld "/p/q".toList "Taskfile.yml".toList).events,
        e.isMerge = false) ∧
      (read.Taskfile ancestorWorld "/p/q".toList "Taskfile.yml".toList).result =
        Res.ok (blankDoc ['2']) := by
  decide
